import Mathlib

/-!
The service check_rkn: the blocklist index, its loader, the refresh cycle and the `check_ips` handler

A shallow embedding of `main.go`.  A Go string is a sequence of bytes, embedded as a
list of numbers; a file system is a partial map from paths to files; the outcome of
every operating-system or network call whose error the program examines is an
explicit input of the embedded function.

`main.go` imports the prefix tree from package `iptree`, which is not part of the
source tree; namespace `iptree` below models it from sections 3 and 4.1 of the
specification.
-/

namespace CheckRkn

/-- A Go string or a file content: its bytes. -/
abbrev Text := List Nat

/-- The bytes of a string of ASCII characters. -/
def ascii (s : String) : Text := s.toList.map Char.toNat

/-! ## Go standard library: `strings`, `bufio` -/

/-- Go `strings.Split(s, sep)` for a one-byte separator: the pieces of `s` between the
occurrences of `sep`; always at least one piece. -/
def split (sep : Nat) : Text → List Text
  | [] => [[]]
  | c :: cs =>
    if c = sep then [] :: split sep cs
    else match split sep cs with
      | [] => [[c]]
      | f :: fs => (c :: f) :: fs

/-- The width of the character at the start of a text if `unicode.IsSpace` holds of it
(the characters U+0009 to U+000D, U+0020, U+0085, U+00A0, U+1680, U+2000 to U+200A,
U+2028, U+2029, U+202F, U+205F, U+3000 in UTF-8), and 0 otherwise. -/
def spaceWidth : Text → Nat
  | [] => 0
  | b0 :: rest =>
    if (9 ≤ b0 ∧ b0 ≤ 13) ∨ b0 = 32 then 1
    else match rest with
      | [] => 0
      | b1 :: rest1 =>
        if b0 = 0xC2 ∧ (b1 = 0x85 ∨ b1 = 0xA0) then 2
        else match rest1 with
          | [] => 0
          | b2 :: _ =>
            if (b0 = 0xE1 ∧ b1 = 0x9A ∧ b2 = 0x80) ∨
                (b0 = 0xE2 ∧ b1 = 0x80 ∧
                  ((0x80 ≤ b2 ∧ b2 ≤ 0x8A) ∨ b2 = 0xA8 ∨ b2 = 0xA9 ∨ b2 = 0xAF)) ∨
                (b0 = 0xE2 ∧ b1 = 0x81 ∧ b2 = 0x9F) ∨
                (b0 = 0xE3 ∧ b1 = 0x80 ∧ b2 = 0x80) then 3
            else 0

/-- The width of the character at the end of a text, given last byte first, if
`unicode.IsSpace` holds of it, and 0 otherwise. -/
def spaceWidthRev : Text → Nat
  | [] => 0
  | b0 :: rest =>
    if (9 ≤ b0 ∧ b0 ≤ 13) ∨ b0 = 32 then 1
    else match rest with
      | [] => 0
      | b1 :: rest1 =>
        if b1 = 0xC2 ∧ (b0 = 0x85 ∨ b0 = 0xA0) then 2
        else match rest1 with
          | [] => 0
          | b2 :: _ =>
            if (b2 = 0xE1 ∧ b1 = 0x9A ∧ b0 = 0x80) ∨
                (b2 = 0xE2 ∧ b1 = 0x80 ∧
                  ((0x80 ≤ b0 ∧ b0 ≤ 0x8A) ∨ b0 = 0xA8 ∨ b0 = 0xA9 ∨ b0 = 0xAF)) ∨
                (b2 = 0xE2 ∧ b1 = 0x81 ∧ b0 = 0x9F) ∨
                (b2 = 0xE3 ∧ b1 = 0x80 ∧ b0 = 0x80) then 3
            else 0

/-- Drop from the start of a text the characters whose width `w` reports, at most
`fuel` of them. -/
def strip (w : Text → Nat) : Nat → Text → Text
  | 0, s => s
  | fuel + 1, s => if w s = 0 then s else strip w fuel (s.drop (w s))

/-- Go `strings.TrimSpace`: drop the leading, then the trailing white space. -/
def trimSpace (s : Text) : Text :=
  (strip spaceWidthRev s.length (strip spaceWidth s.length s).reverse).reverse

/-- Go `bufio.MaxScanTokenSize`: the buffer limit of a default `bufio.Scanner`. -/
def maxScanTokenSize : Nat := 64 * 1024

/-- The raw lines of a text as `bufio.ScanLines` cuts them: the pieces ended by a
newline, and the unterminated rest if it is not empty. -/
def rawLines : Text → List Text
  | [] => []
  | c :: cs =>
    if c = 10 then [] :: rawLines cs
    else match rawLines cs with
      | [] => [[c]]
      | l :: ls => (c :: l) :: ls

/-- Go `bufio.dropCR`: drop one trailing carriage return. -/
def dropCR (l : Text) : Text :=
  if l.getLast? = some 13 then l.dropLast else l

/-- Errors the program can see. -/
inductive GoError where
  | notExist           -- os.Open: the file cannot be opened
  | tooLong            -- bufio.ErrTooLong
  | badAddress         -- the prefix tree rejects the text
  | busy               -- the prefix tree already holds the network
  | other (msg : String)  -- any other failure reported by the environment
  deriving DecidableEq, Repr

/-! ## Package `iptree` -/

namespace iptree

/-- Modelled from the spec: the address family of a text read by package `iptree`
(imported by `main.go`, not in the source tree). -/
inductive Family where
  | v4
  | v6
  deriving DecidableEq, Repr

/-- Modelled from the spec: a node of the trie of package `iptree` (section 4.1: a
unified variable-length-key trie keyed on address bits); a node holds the flag of the
prefix that leads to it, if that prefix was inserted, and the subtries for the next
bit 0 and 1. -/
inductive Node where
  | leaf : Node
  | node : Option Int → Node → Node → Node
  deriving DecidableEq, Repr

/-- Modelled from the spec: the flag the trie of package `iptree` stores for exactly the
prefix `p`, if there is one. -/
def Node.valAt : Node → List Bool → Option Int
  | .leaf, _ => none
  | .node x _ _, [] => x
  | .node _ l r, b :: bs => if b then Node.valAt r bs else Node.valAt l bs

/-- Modelled from the spec: `insert(network, flag)` of the trie of package `iptree`, which
adds a prefix with its flag; a prefix that is already present keeps its flag, as the
default entry keeps flag 0 in every index (section 3). -/
def Node.insert : Node → List Bool → Int → Node
  | .leaf, [], v => .node (some v) .leaf .leaf
  | .node none l r, [], v => .node (some v) l r
  | .node (some x) l r, [], _ => .node (some x) l r
  | .leaf, b :: bs, v =>
    if b then .node none .leaf (Node.insert .leaf bs v)
    else .node none (Node.insert .leaf bs v) .leaf
  | .node x l r, b :: bs, v =>
    if b then .node x l (Node.insert r bs v) else .node x (Node.insert l bs v) r

/-- Modelled from the spec: `lookup(address)` of the trie of package `iptree`: descend
along the bits of the address and return the flag of the deepest node passed that
holds one (`acc` is the deepest flag seen so far). -/
def Node.find : Node → List Bool → Option Int → Option Int
  | .leaf, _, acc => acc
  | .node x _ _, [], acc => x.orElse (fun _ => acc)
  | .node x l r, b :: bs, acc =>
    if b then Node.find r bs (x.orElse (fun _ => acc))
    else Node.find l bs (x.orElse (fun _ => acc))

/-- Modelled from the spec: the type `iptree.IPTree` of package `iptree`: one trie with one
root for the addresses of both families, so that the entry of prefix length 0 covers
the entire address space (section 3). -/
structure IPTree where
  root : Node
  deriving DecidableEq, Repr

/-- Modelled from the spec: the key of an address in the trie of package `iptree`: the `w`
low bits of `a`, most significant first. -/
def toBits : Nat → Nat → List Bool
  | 0, _ => []
  | w + 1, a => (a / 2 ^ w % 2 == 1) :: toBits w a

/-- Modelled from the spec: the value of a decimal digit in an address text read by
package `iptree`. -/
def digitVal (c : Nat) : Option Nat :=
  if 48 ≤ c ∧ c ≤ 57 then some (c - 48) else none

/-- Modelled from the spec: the value of a hexadecimal digit in an address text read by
package `iptree`. -/
def hexVal (c : Nat) : Option Nat :=
  if 48 ≤ c ∧ c ≤ 57 then some (c - 48)
  else if 97 ≤ c ∧ c ≤ 102 then some (c - 87)
  else if 65 ≤ c ∧ c ≤ 70 then some (c - 55)
  else none

/-- Modelled from the spec: the value of a numeral in an address text read by package
`iptree`, its digits read by `dv` in base `base`, `acc` being the value of the digits
already read. -/
def numeral (dv : Nat → Option Nat) (base : Nat) : Text → Nat → Option Nat
  | [], acc => some acc
  | c :: cs, acc =>
    match dv c with
    | none => none
    | some d => numeral dv base cs (acc * base + d)

/-- Modelled from the spec: a numeric field of an address handled by package `iptree`:
between 1 and `maxLen` digits, value at most `maxVal`. -/
def field (dv : Nat → Option Nat) (base maxLen maxVal : Nat) (s : Text) :
    Option Nat :=
  if s = [] ∨ maxLen < s.length then none
  else match numeral dv base s 0 with
    | none => none
    | some n => if n ≤ maxVal then some n else none

/-- Modelled from the spec: all the numeric fields of an address text read by package
`iptree`, or none if one is malformed. -/
def fields (f : Text → Option Nat) : List Text → Option (List Nat)
  | [] => some []
  | s :: ss =>
    match f s, fields f ss with
    | some n, some ns => some (n :: ns)
    | _, _ => none

/-- Modelled from the spec: a syntactically valid IPv4 address for package `iptree`: four
decimal octets separated by dots; the result is the 32-bit value. -/
def parseIPv4 (s : Text) : Option Nat :=
  match fields (field digitVal 10 3 255) (split 46 s) with
  | some [a, b, c, d] => some (((a * 256 + b) * 256 + c) * 256 + d)
  | _ => none

/-- Modelled from the spec: the text before and after the first "::" of an IPv6 address
text read by package `iptree`, if there is one. -/
def cutDoubleColon : Text → Option (Text × Text)
  | [] => none
  | [_] => none
  | c :: d :: cs =>
    if c = 58 ∧ d = 58 then some ([], cs)
    else match cutDoubleColon (d :: cs) with
      | none => none
      | some (l, r) => some (c :: l, r)

/-- Modelled from the spec: the colon-separated 16-bit hexadecimal groups of an IPv6
address text read by package `iptree`; the empty text has none. -/
def groups (s : Text) : Option (List Nat) :=
  if s = [] then some [] else fields (field hexVal 16 4 65535) (split 58 s)

/-- Modelled from the spec: a syntactically valid IPv6 address for package `iptree`: eight
colon-separated hexadecimal groups, where one "::" may stand for one or more zero
groups; the result is the 128-bit value. -/
def parseIPv6 (s : Text) : Option Nat :=
  match cutDoubleColon s with
  | none =>
    match groups s with
    | some gs => if gs.length = 8 then some (gs.foldl (fun a g => a * 65536 + g) 0) else none
    | none => none
  | some (l, r) =>
    match groups l, groups r with
    | some gl, some gr =>
      if gl.length + gr.length ≤ 7 then
        some ((gl ++ List.replicate (8 - (gl.length + gr.length)) 0 ++ gr).foldl
          (fun a g => a * 65536 + g) 0)
      else none
    | _, _ => none

/-- Modelled from the spec: the address a text denotes for package `iptree`, as its family
and its bits, most significant first; none if the text is not a syntactically
valid address. -/
def parseAddr (s : Text) : Option (Family × List Bool) :=
  if 46 ∈ s then (parseIPv4 s).map (fun a => (Family.v4, toBits 32 a))
  else (parseIPv6 s).map (fun a => (Family.v6, toBits 128 a))

/-- Modelled from the spec: the network a text denotes for package `iptree` (section 3: base
address and prefix length, or a bare address taken as a /32 or /128), as its family
and the bits of its prefix; none if the text is malformed. -/
def parseCIDR (s : Text) : Option (Family × List Bool) :=
  match split 47 s with
  | [a] => parseAddr a
  | [a, n] =>
    match parseAddr a, field digitVal 10 3 128 n with
    | some (fam, bits), some len =>
      if len ≤ bits.length then some (fam, bits.take len) else none
    | _, _ => none
  | _ => none

/-- Modelled from the spec: `iptree.New` of package `iptree`: the empty index. -/
def New : IPTree := ⟨.leaf⟩

/-- Modelled from the spec: `(*IPTree).AddByString` of package `iptree`: insert the network
the text denotes with the given flag; a malformed text, and a network that is already
present, are reported as an error and leave the index as it was. -/
def AddByString (t : IPTree) (ipcidr : Text) (v : Int) : IPTree × Option GoError :=
  match parseCIDR ipcidr with
  | none => (t, some .badAddress)
  | some (_, bits) =>
    if (t.root.valAt bits).isSome then (t, some .busy)
    else (⟨t.root.insert bits v⟩, none)

/-- Modelled from the spec: `(*IPTree).GetByString` of package `iptree`: the flag of the most
specific inserted prefix that the bits of the address begin with, whether one was
found, and an error if the text is not a syntactically valid address. -/
def GetByString (t : IPTree) (ip : Text) : Option Int × Bool × Option GoError :=
  match parseAddr ip with
  | none => (none, false, some .badAddress)
  | some (_, bits) =>
    match t.root.find bits none with
    | none => (none, false, none)
    | some v => (some v, true, none)

end iptree

/-! ## The file system and the network, as `main.go` uses them -/

/-- A file: the bytes reading yields and, if reading then fails instead of reaching
the end of the file, the error it reports. -/
structure File where
  data : Text
  readErr : Option GoError
  deriving DecidableEq, Repr

/-- The files of the file system: the file at each path that can be opened. -/
abbrev FS := Text → Option File

/-- The file system with the file at one path replaced (or removed). -/
def FS.set (fs : FS) (path : Text) (file : Option File) : FS :=
  fun p => if p = path then file else fs p

/-- Go `os.Open`: the file to read, or an error if the path cannot be opened. -/
def osOpen (fs : FS) (path : Text) : Except GoError File :=
  match fs path with
  | none => .error .notExist
  | some file => .ok file

/-- Go `os.Rename(from, to)`: on success `to` is the file `from` was, which is gone;
`fault` is the error the operating system reports instead, if it does. -/
def osRename (fault : Option GoError) (fs : FS) (src dst : Text) : FS × Option GoError :=
  match fault with
  | some e => (fs, some e)
  | none =>
    match fs src with
    | none => (fs, some .notExist)
    | some file => ((fs.set dst (some file)).set src none, none)

/-- Go `path.Join(dir, name)` for a directory name in clean form. -/
def pathJoin (dir name : Text) : Text :=
  if dir = [] then name else dir ++ 47 :: name

/-- An HTTP response as `downloadDump` reads it. -/
structure HttpResponse where
  statusCode : Nat
  status : String
  body : Text

/-- What the environment answers to the calls of one `downloadDump`. -/
structure DownloadEnv where
  /-- The outcome of `client.Get(url)`, a timeout included. -/
  get : Except GoError HttpResponse
  /-- The error of `os.Remove(path)`, if it fails. -/
  remove : Option GoError
  /-- The error of `os.OpenFile(path, O_WRONLY|O_CREATE, 0644)`, if it fails. -/
  openFile : Option GoError
  /-- The error of `io.Copy(f, resp.Body)` and the number of bytes written before it,
  if it fails. -/
  copy : Option (GoError × Nat)

/-- Writing `new` from offset 0 into a file that holds `old` and is not truncated. -/
def overwrite (old new : Text) : Text :=
  new ++ old.drop new.length

/-- The bytes of the file at a path, none if there is no file. -/
def contentAt (fs : FS) (path : Text) : Text :=
  match fs path with
  | none => []
  | some file => file.data

/-! ## `loadDump` -/

open iptree

/-- The body of the scanner loop of `loadDump` (lines 36-42) for one line. -/
def addLine (t : IPTree) (text : Text) : IPTree :=
  let fields := split 59 text
  if fields.length < 2 then t
  else (split 124 (fields.headD [])).foldl (fun t ip => (AddByString t (trimSpace ip) 1).1) t

/-- The loop `for scanner.Scan() { ... }` of `loadDump` over the raw lines still to be
read, and `scanner.Err()` after it: a raw line that does not fit the scanner buffer
stops the scan with `bufio.ErrTooLong`, and a read error `readErr` of the file
shows once the bytes read are used up. -/
def scanLoop : List Text → Option GoError → IPTree → IPTree × Option GoError
  | [], readErr, t => (t, readErr)
  | l :: ls, readErr, t =>
    if maxScanTokenSize ≤ l.length then (t, some .tooLong)
    else scanLoop ls readErr (addLine t (dropCR l))

/-- The lines 32-47 of `loadDump` on an opened file: the index, or the error of the
scanner. -/
def scanFile (file : File) : Except GoError IPTree :=
  match scanLoop (rawLines file.data) file.readErr (AddByString New (ascii "0.0.0.0/0") 0).1 with
  | (_, some e) => .error e
  | (t, none) => .ok t

/-- The index `loadDump` builds from a file of the given bytes that reads without
error, or the error of the scanner. -/
def buildIndex (data : Text) : Except GoError IPTree :=
  scanFile ⟨data, none⟩

/-- The function `loadDump` of `main.go`. -/
def loadDump (fs : FS) (path : Text) : Except GoError IPTree :=
  match osOpen fs path with
  | .error e => .error e
  | .ok file => scanFile file

/-! ## `downloadDump` -/

/-- The function `downloadDump` of `main.go`: the file system after the call and the
error returned, if any. -/
def downloadDump (env : DownloadEnv) (fs : FS) (path : Text) : FS × Option GoError :=
  match env.get with
  | .error e => (fs, some e)
  | .ok resp =>
    match (if (fs path).isSome then env.remove else none) with
    | some e => (fs, some e)
    | none =>
      let fs1 := if (fs path).isSome then fs.set path none else fs
      match env.openFile with
      | some e => (fs1, some e)
      | none =>
        let old := contentAt fs1 path
        let fs2 := fs1.set path (some ⟨old, none⟩)
        if resp.statusCode ≠ 200 then (fs2, some (.other resp.status))
        else match env.copy with
          | some (e, n) =>
            (fs2.set path (some ⟨overwrite old (resp.body.take n), none⟩), some e)
          | none => (fs2.set path (some ⟨overwrite old resp.body, none⟩), none)

/-! ## The `check_ips` handler -/

/-- The Go map `res` of the handler, as the list of its keys with their values. -/
abbrev ResMap := List (Text × Bool)

/-- Assignment `res[k] = v`. -/
def ResMap.set : ResMap → Text → Bool → ResMap
  | [], k, v => [(k, v)]
  | (k', v') :: m, k, v => if k' = k then (k, v) :: m else (k', v') :: ResMap.set m k v

/-- The value of `res[k]`, if the key is present. -/
def ResMap.get : ResMap → Text → Option Bool
  | [], _ => none
  | (k', v') :: m, k => if k' = k then some v' else ResMap.get m k

/-- How a call of the handler ends. -/
inductive Outcome where
  /-- Line 131: the body does not decode; HTTP 400. -/
  | decodeError (e : GoError)
  /-- Line 135: the list is empty; HTTP 400. -/
  | emptyList
  /-- Line 143: a lookup reports an error; HTTP 500. -/
  | lookupError (e : GoError)
  /-- Line 154: `res` is handed to the JSON encoder; `err` is the error of the encoder,
  answered with HTTP 500, if it reports one. -/
  | encoded (res : ResMap) (err : Option GoError)
  deriving DecidableEq, Repr

/-- The HTTP status a call of the handler ends with. -/
def Outcome.status : Outcome → Nat
  | .decodeError _ => 400
  | .emptyList => 400
  | .lookupError _ => 500
  | .encoded _ none => 200
  | .encoded _ (some _) => 500

/-- The body of the loop of the handler (lines 141-152) for one address: the map `res`
after it, or the error that ends the request. -/
def checkOne (db : IPTree) (ip : Text) (res : ResMap) : Except GoError ResMap :=
  match GetByString db ip with
  | (_, _, some e) => .error e
  | (v, ok, none) =>
    if !ok then .ok (res.set ip false)
    else if v.getD 0 = 1 then .ok ((res.set ip false).set ip true)
    else .ok (res.set ip false)

/-- The loop of the handler (lines 140-153) over the addresses still to be looked up:
the map `res` or the error that ends the request, and the texts passed to
`db.GetByString` so far. -/
def checkLoop (db : IPTree) : List Text → ResMap → List Text → Except GoError ResMap × List Text
  | [], res, looked => (.ok res, looked)
  | ip :: ips, res, looked =>
    match checkOne db ip res with
    | .error e => (.error e, looked ++ [ip])
    | .ok res1 => checkLoop db ips res1 (looked ++ [ip])

/-- The handler of `/check_ips` in `main.go`, run on the published index `db`: `body` is
what `json.NewDecoder(r.Body).Decode(&ips)` yields and `encodeErr` the error of
`json.NewEncoder(w).Encode(res)`, if any.  The result is how the call ends and the
texts it passed to `db.GetByString`. -/
def checkIps (db : IPTree) (body : Except GoError (List Text)) (encodeErr : Option GoError) :
    Outcome × List Text :=
  match body with
  | .error e => (.decodeError e, [])
  | .ok ips =>
    if ips.length < 1 then (.emptyList, [])
    else match checkLoop db ips [] [] with
      | (.error e, looked) => (.lookupError e, looked)
      | (.ok res, looked) => (.encoded res encodeErr, looked)

/-! ## `main`: bootstrap and periodic refresh -/

/-- The constant `downloadRetryInterval`, in seconds. -/
def downloadRetryInterval : Nat := 30

/-- The path `currentDump` of `main`. -/
def currentDump (dumpDir : Text) : Text := pathJoin dumpDir (ascii "dump.current")

/-- The path `freshDump` of `main`. -/
def freshDump (dumpDir : Text) : Text := pathJoin dumpDir (ascii "dump.fresh")

/-- The variable `db` of `main` and the file system. -/
structure State where
  db : IPTree
  fs : FS

/-- What the environment answers during one refresh cycle. -/
structure CycleEnv where
  download : DownloadEnv
  /-- The error of `os.Rename(freshDump, currentDump)`, if it fails. -/
  rename : Option GoError

/-- One iteration of the loop of the refresh goroutine (lines 104-121). -/
def refreshCycle (dumpDir : Text) (env : CycleEnv) (s : State) : State :=
  match downloadDump env.download s.fs (freshDump dumpDir) with
  | (fs1, some _) => { s with fs := fs1 }
  | (fs1, none) =>
    match loadDump fs1 (freshDump dumpDir) with
    | .error _ => { s with fs := fs1 }
    | .ok newDb =>
      { db := newDb, fs := (osRename env.rename fs1 (freshDump dumpDir) (currentDump dumpDir)).1 }

/-- Where the process is. -/
inductive Proc where
  /-- In the loop of lines 89-96: no index yet; `slept` is the time spent so far in
  `time.Sleep(downloadRetryInterval)`. -/
  | bootstrapping (fs : FS) (slept : Nat)
  /-- Line 99: `log.Fatalln` has ended the process with the given exit code. -/
  | exited (code : Nat)
  /-- Past line 100: an index is published, the refresh goroutine and the handler run. -/
  | serving (s : State)

/-- One iteration of the bootstrap loop (lines 89-96) and, when the download succeeds,
the load that follows it (lines 97-100). -/
def bootstrapStep (dumpDir : Text) (env : DownloadEnv) : Proc → Proc
  | .bootstrapping fs slept =>
    match downloadDump env fs (currentDump dumpDir) with
    | (fs1, some _) => .bootstrapping fs1 (slept + downloadRetryInterval)
    | (fs1, none) =>
      match loadDump fs1 (currentDump dumpDir) with
      | .error _ => .exited 1
      | .ok db => .serving ⟨db, fs1⟩
  | p => p

/-- One tick of the refresh goroutine, which runs once the process serves. -/
def refreshStep (dumpDir : Text) (env : CycleEnv) : Proc → Proc
  | .serving s => .serving (refreshCycle dumpDir env s)
  | p => p

/-- The process from its start in a file system `fs`: the bootstrap loop fed with the
answers `boots` of the environment, then one refresh cycle per element of `ticks`. -/
def run (dumpDir : Text) (boots : List DownloadEnv) (ticks : List CycleEnv) (fs : FS) : Proc :=
  ticks.foldl (fun p env => refreshStep dumpDir env p)
    (boots.foldl (fun p env => bootstrapStep dumpDir env p) (.bootstrapping fs 0))

/-! ## The refresh goroutine and a handler running concurrently -/

/-- The two goroutines that share `db` and `lock`. -/
inductive Tid where
  | refresher
  | handler
  deriving DecidableEq, Repr

/-- Where the refresh goroutine is in one cycle, with its local variables. -/
inductive RState where
  /-- Line 105: about to call `downloadDump`. -/
  | start
  /-- Line 110, in `loadDump`: about to open the staging file. -/
  | opening
  /-- In the scanner loop of `loadDump`: the raw lines still to be read, the read error
  of the file, if it has one, and the local tree `t` built so far. -/
  | loading (lines : List Text) (readErr : Option GoError) (t : IPTree)
  /-- Line 115: `loadDump` has returned `newDb`; about to call `lock.Lock()`. -/
  | acquire (newDb : IPTree)
  /-- Line 116: holds the lock, about to assign `db = newDb`. -/
  | assign (newDb : IPTree)
  /-- Line 117: about to rename the staging file. -/
  | rename
  /-- Line 121: about to call `lock.Unlock()`. -/
  | release
  /-- The cycle is over. -/
  | done

/-- Where a call of the handler is, with its local variables. -/
inductive HState where
  /-- Line 125: about to call `lock.Lock()`. -/
  | start
  /-- Lines 128-137: about to decode the body. -/
  | decode
  /-- Lines 140-153: the addresses still to be looked up, `res` and the texts looked up
  so far. -/
  | loop (ips : List Text) (res : ResMap) (looked : List Text)
  /-- The handler has produced its answer; the deferred `lock.Unlock()` is pending. -/
  | respond (out : Outcome) (looked : List Text)
  /-- The handler has returned. -/
  | done (out : Outcome) (looked : List Text)

/-- The shared variables `db` and `lock`, the file system, and the two goroutines. -/
structure Config where
  db : IPTree
  fs : FS
  /-- The goroutine that holds the mutex, if one does. -/
  lock : Option Tid
  r : RState
  h : HState

/-- One step of the refresh goroutine; none if it is blocked on the mutex or over. -/
def stepRefresher (dumpDir : Text) (env : CycleEnv) (c : Config) : Option Config :=
  match c.r with
  | .start =>
    match downloadDump env.download c.fs (freshDump dumpDir) with
    | (fs1, some _) => some { c with fs := fs1, r := .done }
    | (fs1, none) => some { c with fs := fs1, r := .opening }
  | .opening =>
    match osOpen c.fs (freshDump dumpDir) with
    | .error _ => some { c with r := .done }
    | .ok file =>
      some { c with
        r := .loading (rawLines file.data) file.readErr (AddByString New (ascii "0.0.0.0/0") 0).1 }
  | .loading [] (some _) _ => some { c with r := .done }
  | .loading [] none t => some { c with r := .acquire t }
  | .loading (l :: ls) readErr t =>
    if maxScanTokenSize ≤ l.length then some { c with r := .done }
    else some { c with r := .loading ls readErr (addLine t (dropCR l)) }
  | .acquire newDb =>
    if c.lock = none then some { c with lock := some .refresher, r := .assign newDb } else none
  | .assign newDb => some { c with db := newDb, r := .rename }
  | .rename =>
    some { c with
      fs := (osRename env.rename c.fs (freshDump dumpDir) (currentDump dumpDir)).1,
      r := .release }
  | .release => some { c with lock := none, r := .done }
  | .done => none

/-- One step of the handler; none if it is blocked on the mutex or has returned. -/
def stepHandler (body : Except GoError (List Text)) (encodeErr : Option GoError)
    (c : Config) : Option Config :=
  match c.h with
  | .start => if c.lock = none then some { c with lock := some .handler, h := .decode } else none
  | .decode =>
    match body with
    | .error e => some { c with h := .respond (.decodeError e) [] }
    | .ok ips =>
      if ips.length < 1 then some { c with h := .respond .emptyList [] }
      else some { c with h := .loop ips [] [] }
  | .loop [] res looked => some { c with h := .respond (.encoded res encodeErr) looked }
  | .loop (ip :: ips) res looked =>
    match checkOne c.db ip res with
    | .error e => some { c with h := .respond (.lookupError e) (looked ++ [ip]) }
    | .ok res1 => some { c with h := .loop ips res1 (looked ++ [ip]) }
  | .respond out looked => some { c with lock := none, h := .done out looked }
  | .done _ _ => none

/-- One step of the goroutine the scheduler picks; a goroutine that cannot move leaves
the configuration as it is. -/
def step (dumpDir : Text) (env : CycleEnv) (body : Except GoError (List Text))
    (encodeErr : Option GoError) (c : Config) (tid : Tid) : Config :=
  match tid with
  | .refresher => (stepRefresher dumpDir env c).getD c
  | .handler => (stepHandler body encodeErr c).getD c

/-- The configuration in which a refresh cycle and a request both start, with `db`
published and the mutex free. -/
def initial (db : IPTree) (fs : FS) : Config :=
  { db := db, fs := fs, lock := none, r := .start, h := .start }

/-- The configuration reached from the initial one under a schedule, the list of the
goroutines picked one after the other. -/
def runSchedule (dumpDir : Text) (env : CycleEnv) (body : Except GoError (List Text))
    (encodeErr : Option GoError) (db : IPTree) (fs : FS) (sched : List Tid) : Config :=
  sched.foldl (step dumpDir env body encodeErr) (initial db fs)

/-! ## Notions used to state the properties -/

/-- The texts `loadDump` passes to `AddByString` for one line. -/
def lineTokens (text : Text) : List Text :=
  if (split 59 text).length < 2 then []
  else (split 124 ((split 59 text).headD [])).map trimSpace

/-- The prefix bits of the network a text denotes for the index, if it denotes one. -/
def netBits (tok : Text) : Option (List Bool) := (parseCIDR tok).map Prod.snd

/-- The index after `t.AddByString(tok, 1)`, whose error `loadDump` ignores. -/
def add1 (t : IPTree) (tok : Text) : IPTree := (AddByString t tok 1).1

/-- The texts `loadDump` passes to `AddByString` for a list of lines. -/
def tokensOf (lines : List Text) : List Text := (lines.map lineTokens).flatten

/-- The index `loadDump` starts from: the empty index with "0.0.0.0/0" inserted with
flag 0. -/
def seed : IPTree := (AddByString New (ascii "0.0.0.0/0") 0).1

/-- Whether the handler maps an address to true: a lookup that finds the flag 1. -/
def member (db : IPTree) (ip : Text) : Bool :=
  (GetByString db ip).2.1 && decide ((GetByString db ip).1.getD 0 = 1)

/-- The index `d` is one that `loadDump` builds, completely, from the body the download
of the cycle delivers. -/
def Built (env : CycleEnv) (d : IPTree) : Prop :=
  ∃ resp, env.download.get = .ok resp ∧ buildIndex resp.body = .ok d

/-- What holds of the refresh goroutine at each of its program points. -/
def RInv (dumpDir : Text) (env : CycleEnv) (c : Config) : Prop :=
  match c.r with
  | .start => c.lock ≠ some .refresher
  | .opening =>
    c.lock ≠ some .refresher ∧
      ∃ resp, env.download.get = .ok resp ∧
        c.fs (freshDump dumpDir) = some ⟨resp.body, none⟩
  | .loading ls readErr t =>
    c.lock ≠ some .refresher ∧
      ∃ resp, env.download.get = .ok resp ∧
        scanLoop ls readErr t = scanLoop (rawLines resp.body) none seed
  | .acquire d => c.lock ≠ some .refresher ∧ Built env d
  | .assign d => c.lock = some .refresher ∧ Built env d
  | .rename => c.lock = some .refresher
  | .release => c.lock = some .refresher
  | .done => c.lock ≠ some .refresher

/-- What holds of the handler at each of its program points. -/
def HInv (env : CycleEnv) (body : Except GoError (List Text)) (encodeErr : Option GoError)
    (dbOld : IPTree) (c : Config) : Prop :=
  match c.h with
  | .start => c.lock ≠ some .handler
  | .decode => c.lock = some .handler
  | .loop rem res looked =>
    c.lock = some .handler ∧
      ∃ ips, body = .ok ips ∧ ¬ ips.length < 1 ∧
        checkLoop c.db ips [] [] = checkLoop c.db rem res looked
  | .respond out looked => c.lock = some .handler ∧ (out, looked) = checkIps c.db body encodeErr
  | .done out looked =>
    c.lock ≠ some .handler ∧
      ((out, looked) = checkIps dbOld body encodeErr ∨
        ∃ d, Built env d ∧ (out, looked) = checkIps d body encodeErr)

/-- The invariant of the concurrent run: `db` is the index published before the cycle
or an index `loadDump` has built completely, and each goroutine is where the mutex
allows it to be. -/
def Inv (dumpDir : Text) (env : CycleEnv) (body : Except GoError (List Text))
    (encodeErr : Option GoError) (dbOld : IPTree) (c : Config) : Prop :=
  (c.db = dbOld ∨ Built env c.db) ∧ RInv dumpDir env c ∧ HInv env body encodeErr dbOld c

/-- A text made of the given lines, each ended by a newline. -/
def unlines (ls : List Text) : Text := (ls.map (fun l => l ++ [10])).flatten

/-- A dataset with every line that has fewer than 2 semicolon-delimited fields
removed. -/
def removeShortLines (data : Text) : Text :=
  unlines ((rawLines data).filter (fun l => decide (2 ≤ (split 59 (dropCR l)).length)))

/-! ## The listing of a dataset, in the words of the specification -/

/-- The texts `ps` are the pieces of `s` that the byte `sep` separates. -/
def SepBy (sep : Nat) (s : Text) (ps : List Text) : Prop :=
  ps ≠ [] ∧ (∀ p ∈ ps, sep ∉ p) ∧ s = List.intercalate [sep] ps

/-- The text `line` is a record of the dataset: one of the pieces that newlines
separate, without the carriage return that may end it. -/
def IsLine (data line : Text) : Prop :=
  ∃ segs, SepBy 10 data segs ∧
    ∃ seg ∈ segs, seg = line ++ [13] ∨ (seg = line ∧ line.getLast? ≠ some 13)

/-- The characters with the Unicode White_Space property. -/
def whiteSpace : List Char :=
  [0x09, 0x0A, 0x0B, 0x0C, 0x0D, 0x20, 0x85, 0xA0, 0x1680, 0x2000, 0x2001, 0x2002, 0x2003,
    0x2004, 0x2005, 0x2006, 0x2007, 0x2008, 0x2009, 0x200A, 0x2028, 0x2029, 0x202F, 0x205F,
    0x3000].map Char.ofNat

/-- The bytes of the UTF-8 encoding of a character. -/
def encode (c : Char) : Text := (String.utf8EncodeChar c).map UInt8.toNat

/-- The UTF-8 encodings of the white-space characters. -/
def spaceCodes : List Text := whiteSpace.map encode

/-- The text is a sequence of white-space characters in UTF-8. -/
def SpaceRun (bs : Text) : Prop :=
  ∃ codes : List Text, (∀ code ∈ codes, code ∈ spaceCodes) ∧ bs = codes.flatten

/-- The text `core` is `tok` without its leading and trailing white space. -/
def Trimmed (tok core : Text) : Prop :=
  ∃ pre post, tok = pre ++ core ++ post ∧ SpaceRun pre ∧ SpaceRun post ∧
    (∀ code ∈ spaceCodes, ¬ code <+: core) ∧ (∀ code ∈ spaceCodes, ¬ code <:+ core)

/-- The text `core` is listed in the dataset: it is, trimmed of white space, one of the
pipe-separated entries of field 0 of a record that has at least 2 semicolon-delimited
fields. -/
def ListedToken (data core : Text) : Prop :=
  ∃ line, IsLine data line ∧
    ∃ fields, SepBy 59 line fields ∧ 2 ≤ fields.length ∧
      ∃ toks, SepBy 124 (fields.headD []) toks ∧ ∃ tok ∈ toks, Trimmed tok core

/-- The text is a decimal numeral of 1 to 3 digits with value `n`. -/
def Decimal (s : Text) (n : Nat) : Prop :=
  s ≠ [] ∧ s.length ≤ 3 ∧ (∀ b ∈ s, 48 ≤ b ∧ b ≤ 57) ∧
    n = Nat.ofDigits 10 (s.reverse.map (fun b => b - 48))

/-- The text is an IPv4 address in dotted decimal, with the 32-bit value `a`. -/
def IsIPv4 (s : Text) (a : Nat) : Prop :=
  ∃ o1 o2 o3 o4 n1 n2 n3 n4, SepBy 46 s [o1, o2, o3, o4] ∧
    Decimal o1 n1 ∧ n1 ≤ 255 ∧ Decimal o2 n2 ∧ n2 ≤ 255 ∧
    Decimal o3 n3 ∧ n3 ≤ 255 ∧ Decimal o4 n4 ∧ n4 ≤ 255 ∧
    a = n1 * 2 ^ 24 + n2 * 2 ^ 16 + n3 * 2 ^ 8 + n4

/-- The text is an IPv4 address, taken as a range of prefix length 32, or an IPv4
range in CIDR notation, with the given base address and prefix length. -/
def IsIPv4Range (s : Text) (base len : Nat) : Prop :=
  (IsIPv4 s base ∧ len = 32) ∨
    ∃ addr l, SepBy 47 s [addr, l] ∧ IsIPv4 addr base ∧ Decimal l len ∧ len ≤ 32

/-- The IPv4 address `a` lies inside the range of base `base` and prefix length `len`:
they agree on their `len` leading bits. -/
def InRange (a base len : Nat) : Prop :=
  a / 2 ^ (32 - len) = base / 2 ^ (32 - len)

/-- The IPv4 address `a` lies inside an IPv4 address or range of prefix length at least
1 that is listed in the dataset. -/
def listedV4 (data : Text) (a : Nat) : Prop :=
  ∃ core base len, ListedToken data core ∧ IsIPv4Range core base len ∧ 1 ≤ len ∧
    InRange a base len

/-- No entry listed in the dataset is read by the index as an IPv6 network with a prefix
of 32 bits or fewer. -/
def noShortV6 (data : Text) : Prop :=
  ∀ core, ListedToken data core → ∀ p, parseCIDR core = some (.v6, p) → 32 < p.length

/-- Whether the index reads a text as an IPv6 network with a prefix of 32 bits or
fewer. -/
def shortV6 (core : Text) : Bool :=
  match parseCIDR core with
  | some (.v6, p) => decide (p.length ≤ 32)
  | _ => false

/-! ## Concrete environments -/

/-- A text of one line of 100000 letters, without a semicolon and without a newline. -/
def longLine : Text := List.replicate 100000 97

/-- A download that succeeds with the given body. -/
def goodDownload (body : Text) : DownloadEnv :=
  { get := .ok { statusCode := 200, status := "200 OK", body := body },
    remove := none, openFile := none, copy := none }

/-- A download that the server answers with status 404. -/
def notFoundDownload : DownloadEnv :=
  { get := .ok { statusCode := 404, status := "404 Not Found", body := ascii "Not Found" },
    remove := none, openFile := none, copy := none }

/-- A download whose request times out. -/
def timeoutDownload : DownloadEnv :=
  { get := .error (.other "timeout"), remove := none, openFile := none, copy := none }

/-- A file system that holds `dump.current` of directory "d" with the given content and
nothing else. -/
def fsWithCurrent (content : Text) : FS :=
  FS.set (fun _ => none) (currentDump (ascii "d")) (some ⟨content, none⟩)

/-- A schedule in which the handler takes the mutex first, the refresh goroutine
downloads, builds its index and waits for the mutex, the handler finishes, and the
refresh goroutine then publishes the new index. -/
def handlerFirst : List Tid :=
  [.handler, .refresher, .refresher, .refresher, .refresher, .refresher, .refresher,
    .handler, .handler, .handler, .handler, .refresher, .refresher, .refresher, .refresher]

namespace iptree

theorem Node.valAt_insert (p : List Bool) (v : Int) :
    ∀ (t : Node) (q : List Bool),
      (t.insert p v).valAt q = if q = p then some ((t.valAt p).getD v) else t.valAt q := by
  induction p with
  | nil =>
    intro t q
    cases t with
    | leaf => cases q <;> simp [Node.insert, Node.valAt]
    | node x l r =>
      cases x <;> cases q <;> simp [Node.insert, Node.valAt]
  | cons b bs ih =>
    intro t q
    cases t with
    | leaf =>
      cases q with
      | nil => cases b <;> simp [Node.insert, Node.valAt]
      | cons c cs =>
        cases b <;> cases c <;> simp [Node.insert, Node.valAt, ih]
    | node x l r =>
      cases q with
      | nil => cases b <;> simp [Node.insert, Node.valAt]
      | cons c cs =>
        cases b <;> cases c <;> simp [Node.insert, Node.valAt, ih]

/-- The result of a lookup is the flag seen before it or a flag stored for a prefix of
the address. -/
theorem Node.find_source (q : List Bool) :
    ∀ (t : Node) (acc : Option Int),
      t.find q acc = acc ∨ ∃ p v, p <+: q ∧ t.valAt p = some v ∧ t.find q acc = some v := by
  induction q with
  | nil =>
    intro t acc
    cases t with
    | leaf => simp [Node.find]
    | node x l r =>
      cases x with
      | none => simp [Node.find]
      | some v => right; exact ⟨[], v, by simp, by simp [Node.valAt], by simp [Node.find]⟩
  | cons b bs ih =>
    intro t acc
    cases t with
    | leaf => simp [Node.find]
    | node x l r =>
      have key : ∀ s : Node, (if b then r else l) = s →
          Node.find (.node x l r) (b :: bs) acc = s.find bs (x.orElse (fun _ => acc)) := by
        intro s hs; subst hs; cases b <;> simp [Node.find]
      have kv : ∀ p, Node.valAt (.node x l r) (b :: p) = (if b then r else l).valAt p := by
        intro p; cases b <;> simp [Node.valAt]
      rw [key _ rfl]
      rcases ih (if b then r else l) (x.orElse (fun _ => acc)) with h | ⟨p, v, hp, hv, hf⟩
      · rw [h]
        cases x with
        | none => left; simp
        | some v =>
          right
          exact ⟨[], v, by simp, by simp [Node.valAt], by simp⟩
      · right
        exact ⟨b :: p, v, by simpa using hp, by rw [kv]; exact hv, hf⟩

/-- A flag stored for a prefix of the address is overridden only by a flag stored for a
longer prefix of the address. -/
theorem Node.find_deeper (q : List Bool) :
    ∀ (t : Node) (acc : Option Int) (p : List Bool) (v : Int),
      p <+: q → t.valAt p = some v →
      ∃ p' w, p <+: p' ∧ p' <+: q ∧ t.valAt p' = some w ∧ t.find q acc = some w := by
  induction q with
  | nil =>
    intro t acc p v hp hv
    have : p = [] := by simpa using hp
    subst this
    cases t with
    | leaf => simp [Node.valAt] at hv
    | node x l r =>
      simp [Node.valAt] at hv
      subst hv
      exact ⟨[], v, by simp, by simp, by simp [Node.valAt], by simp [Node.find]⟩
  | cons b bs ih =>
    intro t acc p v hp hv
    cases t with
    | leaf => simp [Node.valAt] at hv
    | node x l r =>
      have key : Node.find (.node x l r) (b :: bs) acc
          = (if b then r else l).find bs (x.orElse (fun _ => acc)) := by
        cases b <;> simp [Node.find]
      have kv : ∀ p, Node.valAt (.node x l r) (b :: p) = (if b then r else l).valAt p := by
        intro p; cases b <;> simp [Node.valAt]
      cases p with
      | nil =>
        simp [Node.valAt] at hv
        subst hv
        rcases Node.find_source bs (if b then r else l) ((some v).orElse (fun _ => acc))
          with h | ⟨p, w, hp', hw, hf⟩
        · exact ⟨[], v, by simp, by simp, by simp [Node.valAt], by rw [key, h]; simp⟩
        · exact ⟨b :: p, w, by simp, by simpa using hp', by rw [kv]; exact hw, by rw [key, hf]⟩
      | cons c cs =>
        have hc : c = b ∧ cs <+: bs := by
          simpa [List.cons_prefix_cons] using hp
        obtain ⟨rfl, hcs⟩ := hc
        rw [kv] at hv
        obtain ⟨p', w, h1, h2, h3, h4⟩ := ih (if c then r else l) (x.orElse (fun _ => acc)) cs v hcs hv
        exact ⟨c :: p', w, by simpa [List.cons_prefix_cons] using h1,
          by simpa [List.cons_prefix_cons] using h2, by rw [kv]; exact h3, by rw [key, h4]⟩

end iptree

theorem ResMap.get_set (m : ResMap) (k : Text) (v : Bool) (k' : Text) :
    (m.set k v).get k' = if k' = k then some v else m.get k' := by
  induction m with
  | nil =>
    by_cases h : k = k' <;> simp [ResMap.set, ResMap.get, h, eq_comm]
  | cons a m ih =>
    obtain ⟨ka, va⟩ := a
    by_cases h1 : ka = k
    · subst h1
      by_cases h2 : ka = k'
      · simp [ResMap.set, ResMap.get, h2]
      · have h3 : ¬ k' = ka := fun h => h2 h.symm
        simp [ResMap.set, ResMap.get, h2, h3]
    · by_cases h2 : ka = k'
      · subst h2
        simp [ResMap.set, ResMap.get, h1]
      · simp [ResMap.set, ResMap.get, h1, h2, ih]

theorem ResMap.set_set (m : ResMap) (k : Text) (v w : Bool) :
    (m.set k v).set k w = m.set k w := by
  induction m with
  | nil => simp [ResMap.set]
  | cons a m ih =>
    obtain ⟨ka, va⟩ := a
    by_cases h1 : ka = k
    · simp [ResMap.set, h1]
    · simp [ResMap.set, h1, ih]

theorem checkOne_ok (db : IPTree) (ip : Text) (res : ResMap)
    (h : (GetByString db ip).2.2 = none) :
    checkOne db ip res = .ok (res.set ip (member db ip)) := by
  rcases hg : GetByString db ip with ⟨v, ok, e⟩
  rw [hg] at h
  simp only at h
  subst h
  have hm : member db ip = (ok && decide (v.getD 0 = 1)) := by simp [member, hg]
  simp only [checkOne, hg, hm]
  cases ok with
  | false => simp
  | true =>
    by_cases hv : v.getD 0 = 1
    · simp [hv, ResMap.set_set]
    · simp [hv]

theorem checkOne_error (db : IPTree) (ip : Text) (res : ResMap) (e : GoError)
    (h : (GetByString db ip).2.2 = some e) :
    checkOne db ip res = .error e := by
  rcases hg : GetByString db ip with ⟨v, ok, e'⟩
  rw [hg] at h
  simp only at h
  subst h
  simp [checkOne, hg]

theorem checkLoop_ok (db : IPTree) :
    ∀ (ips : List Text) (res : ResMap) (looked : List Text),
      (∀ ip ∈ ips, (GetByString db ip).2.2 = none) →
      checkLoop db ips res looked
        = (.ok (ips.foldl (fun r ip => r.set ip (member db ip)) res), looked ++ ips) := by
  intro ips
  induction ips with
  | nil => intro res looked _; simp [checkLoop]
  | cons ip ips ih =>
    intro res looked h
    have h2 : ∀ ip ∈ ips, (GetByString db ip).2.2 = none := fun x hx => h x (by simp [hx])
    simp [checkLoop, checkOne_ok db ip res (h ip (by simp)), ih _ _ h2]

theorem get_foldl_set (f : Text → Bool) (k : Text) :
    ∀ (ips : List Text) (res : ResMap),
      (ips.foldl (fun r ip => r.set ip (f ip)) res).get k
        = if k ∈ ips then some (f k) else res.get k := by
  intro ips
  induction ips with
  | nil => intro res; simp
  | cons ip ips ih =>
    intro res
    rw [List.foldl_cons, ih, ResMap.get_set]
    by_cases h1 : k ∈ ips
    · simp [h1]
    · by_cases h2 : k = ip
      · simp [h2]
      · simp [h1, h2]

theorem addLine_eq (t : IPTree) (text : Text) :
    addLine t text = (lineTokens text).foldl add1 t := by
  unfold addLine lineTokens
  by_cases h : (split 59 text).length < 2
  · simp [h]
  · simp only [h, if_false, List.foldl_map]
    rfl

theorem foldl_addLine (lines : List Text) :
    ∀ t : IPTree, lines.foldl addLine t = (tokensOf lines).foldl add1 t := by
  induction lines with
  | nil => intro t; simp [tokensOf]
  | cons l ls ih =>
    intro t
    simp only [List.foldl_cons, ih, addLine_eq, tokensOf, List.map_cons, List.flatten_cons,
      List.foldl_append]

theorem scanLoop_fits (readErr : Option GoError) :
    ∀ (ls : List Text) (t : IPTree), (∀ l ∈ ls, l.length < maxScanTokenSize) →
      scanLoop ls readErr t = ((ls.map dropCR).foldl addLine t, readErr) := by
  intro ls
  induction ls with
  | nil => intro t _; simp [scanLoop]
  | cons l ls ih =>
    intro t h
    have h1 : ¬ maxScanTokenSize ≤ l.length := Nat.not_le.2 (h l (by simp))
    simp only [scanLoop, h1, if_false, List.map_cons, List.foldl_cons]
    exact ih _ (fun x hx => h x (by simp [hx]))

theorem scanLoop_tooLong (readErr : Option GoError) :
    ∀ (ls : List Text) (t : IPTree), (∃ l ∈ ls, maxScanTokenSize ≤ l.length) →
      ∃ t', scanLoop ls readErr t = (t', some .tooLong) := by
  intro ls
  induction ls with
  | nil => intro t h; simp at h
  | cons l ls ih =>
    intro t h
    by_cases h1 : maxScanTokenSize ≤ l.length
    · exact ⟨t, by simp [scanLoop, h1]⟩
    · have h2 : ∃ x ∈ ls, maxScanTokenSize ≤ x.length := by
        obtain ⟨x, hx, hl⟩ := h
        rcases List.mem_cons.1 hx with rfl | hx
        · exact absurd hl h1
        · exact ⟨x, hx, hl⟩
      simp only [scanLoop, h1, if_false]
      exact ih _ h2

theorem seed_eq : seed = ⟨.node (some 0) .leaf .leaf⟩ := by decide

/-- The result of the scan of a file whose lines all fit the scanner buffer. -/
theorem scanFile_fits (file : File) (h : ∀ l ∈ rawLines file.data, l.length < maxScanTokenSize) :
    scanFile file = match file.readErr with
      | some e => .error e
      | none => .ok ((tokensOf ((rawLines file.data).map dropCR)).foldl add1 seed) := by
  unfold scanFile
  rw [scanLoop_fits _ _ _ h, foldl_addLine]
  cases file.readErr <;> rfl

theorem scanFile_tooLong (file : File)
    (h : ∃ l ∈ rawLines file.data, maxScanTokenSize ≤ l.length) :
    scanFile file = .error .tooLong := by
  unfold scanFile
  obtain ⟨t, ht⟩ := scanLoop_tooLong file.readErr _ (AddByString New (ascii "0.0.0.0/0") 0).1 h
  rw [ht]

theorem buildIndex_fits (data : Text) (h : ∀ l ∈ rawLines data, l.length < maxScanTokenSize) :
    buildIndex data = .ok ((tokensOf ((rawLines data).map dropCR)).foldl add1 seed) := by
  unfold buildIndex
  rw [scanFile_fits ⟨data, none⟩ h]

theorem buildIndex_tooLong (data : Text) (h : ∃ l ∈ rawLines data, maxScanTokenSize ≤ l.length) :
    buildIndex data = .error .tooLong :=
  scanFile_tooLong ⟨data, none⟩ h

theorem buildIndex_ok_iff (data : Text) (db : IPTree) :
    buildIndex data = .ok db ↔
      (∀ l ∈ rawLines data, l.length < maxScanTokenSize) ∧
      db = (tokensOf ((rawLines data).map dropCR)).foldl add1 seed := by
  by_cases h : ∀ l ∈ rawLines data, l.length < maxScanTokenSize
  · rw [buildIndex_fits data h]
    constructor
    · intro e; exact ⟨h, (Except.ok.inj e).symm⟩
    · rintro ⟨_, rfl⟩; rfl
  · have h2 : ∃ l ∈ rawLines data, maxScanTokenSize ≤ l.length := by
      push_neg at h; exact h
    rw [buildIndex_tooLong data h2]
    constructor
    · intro e; cases e
    · rintro ⟨h3, _⟩; exact absurd h3 h

/-- A file that scans to an index reads without error and gives the index of its
bytes. -/
theorem scanFile_ok (file : File) (db : IPTree) (h : scanFile file = .ok db) :
    file.readErr = none ∧ buildIndex file.data = .ok db := by
  by_cases hfit : ∀ l ∈ rawLines file.data, l.length < maxScanTokenSize
  · rw [scanFile_fits file hfit] at h
    cases hr : file.readErr with
    | some e => rw [hr] at h; cases h
    | none =>
      rw [hr] at h
      exact ⟨rfl, by rw [buildIndex_fits _ hfit]; exact h⟩
  · have h2 : ∃ l ∈ rawLines file.data, maxScanTokenSize ≤ l.length := by
      push_neg at hfit; exact hfit
    rw [scanFile_tooLong file h2] at h
    cases h

theorem add1_valAt (t : IPTree) (tok : Text) (p : List Bool) :
    (add1 t tok).root.valAt p
      = (t.root.valAt p).or (if netBits tok = some p then some 1 else none) := by
  rcases h : parseCIDR tok with _ | ⟨fam, bits⟩
  · have hn : netBits tok = none := by simp [netBits, h]
    have ha : add1 t tok = t := by simp [add1, AddByString, h]
    rw [ha, hn]
    simp
  · have hn : netBits tok = some bits := by simp [netBits, h]
    rw [hn]
    by_cases hb : (t.root.valAt bits).isSome = true
    · have ha : add1 t tok = t := by simp [add1, AddByString, h, hb]
      rw [ha]
      by_cases hp : bits = p
      · subst hp
        obtain ⟨x, hx⟩ := Option.isSome_iff_exists.1 hb
        simp [hx]
      · simp [hp]
    · have hnone : t.root.valAt bits = none := by simpa using hb
      have ha : add1 t tok = ⟨t.root.insert bits 1⟩ := by simp [add1, AddByString, h, hb]
      rw [ha]
      show (t.root.insert bits 1).valAt p = _
      rw [Node.valAt_insert]
      by_cases hp : p = bits
      · subst hp
        simp [hnone]
      · have : ¬ bits = p := fun e => hp e.symm
        simp [hp, this]

theorem foldl_add1_valAt (p : List Bool) :
    ∀ (toks : List Text) (t : IPTree),
      (toks.foldl add1 t).root.valAt p
        = (t.root.valAt p).or
            (if ∃ tok ∈ toks, netBits tok = some p then some 1 else none) := by
  intro toks
  induction toks with
  | nil => intro t; simp
  | cons tok toks ih =>
    intro t
    rw [List.foldl_cons, ih, add1_valAt]
    cases hv : t.root.valAt p with
    | some x => simp
    | none =>
      by_cases hp : netBits tok = some p
      · have : ∃ x ∈ tok :: toks, netBits x = some p := ⟨tok, by simp, hp⟩
        simp only [hp, if_true, this, Option.none_or]
        rfl
      · by_cases he : ∃ x ∈ toks, netBits x = some p
        · have : ∃ x ∈ tok :: toks, netBits x = some p := by
            obtain ⟨x, hx, hxp⟩ := he
            exact ⟨x, by simp [hx], hxp⟩
          simp only [hp, if_false, he, this, if_true, Option.none_or]
        · have : ¬ ∃ x ∈ tok :: toks, netBits x = some p := by
            rintro ⟨x, hx, hxp⟩
            rcases List.mem_cons.1 hx with rfl | hx
            · exact hp hxp
            · exact he ⟨x, hx, hxp⟩
          simp only [hp, if_false, he, this, Option.none_or]

theorem seed_valAt (p : List Bool) :
    seed.root.valAt p = if p = [] then some 0 else none := by
  rw [seed_eq]
  cases p with
  | nil => simp [Node.valAt]
  | cons b bs => cases b <;> simp [Node.valAt]

/-- What the trie of an index built from the seed holds: the default entry with flag 0
at the root and flag 1 at the other inserted prefixes. -/
theorem built_valAt (toks : List Text) (p : List Bool) :
    (toks.foldl add1 seed).root.valAt p
      = if p = [] then some 0
        else if ∃ tok ∈ toks, netBits tok = some p then some 1 else none := by
  rw [foldl_add1_valAt, seed_valAt]
  by_cases hp : p = []
  · simp only [hp, if_true]
    rfl
  · simp only [hp, if_false, Option.none_or]

theorem built_find (toks : List Text) (bits : List Bool) :
    ∃ v, (toks.foldl add1 seed).root.find bits none = some v ∧
      (v = 1 ↔ ∃ p, p ≠ [] ∧ p <+: bits ∧ ∃ tok ∈ toks, netBits tok = some p) := by
  have hroot : (toks.foldl add1 seed).root.valAt [] = some 0 := by
    rw [built_valAt]; rfl
  obtain ⟨p', w, _, h2, h3, h4⟩ :=
    Node.find_deeper bits (toks.foldl add1 seed).root none [] 0 (List.nil_prefix) hroot
  refine ⟨w, h4, ?_⟩
  constructor
  · rintro rfl
    rw [built_valAt] at h3
    by_cases hp : p' = []
    · rw [if_pos hp] at h3
      exact absurd (Option.some.inj h3) (by decide)
    · by_cases he : ∃ tok ∈ toks, netBits tok = some p'
      · exact ⟨p', hp, h2, he⟩
      · rw [if_neg hp, if_neg he] at h3
        cases h3
  · rintro ⟨p, hp, hpre, htok⟩
    have hv : (toks.foldl add1 seed).root.valAt p = some 1 := by
      rw [built_valAt, if_neg hp, if_pos htok]
    obtain ⟨q, u, h1, _, h3', h4'⟩ :=
      Node.find_deeper bits (toks.foldl add1 seed).root none p 1 hpre hv
    rw [h4] at h4'
    have huw : w = u := Option.some.inj h4'
    subst huw
    have hq : q ≠ [] := by
      rintro rfl
      exact hp (by simpa using h1)
    rw [built_valAt, if_neg hq] at h3'
    by_cases he : ∃ tok ∈ toks, netBits tok = some q
    · rw [if_pos he] at h3'
      exact (Option.some.inj h3').symm
    · rw [if_neg he] at h3'
      cases h3'

theorem intercalate_single (sep a : Text) : List.intercalate sep [a] = a := by
  simp [List.intercalate, List.intersperse]

theorem intercalate_cons_cons (sep a b : Text) (l : List Text) :
    List.intercalate sep (a :: b :: l) = a ++ sep ++ List.intercalate sep (b :: l) := by
  simp [List.intercalate, List.intersperse]

theorem split_ne_nil (sep : Nat) : ∀ s : Text, split sep s ≠ [] := by
  intro s
  induction s with
  | nil => simp [split]
  | cons c cs ih =>
    unfold split
    by_cases h : c = sep
    · simp [h]
    · simp only [h, if_false]
      cases hs : split sep cs with
      | nil => simp
      | cons f fs => simp

theorem split_no_sep (sep : Nat) : ∀ s : Text, sep ∉ s → split sep s = [s] := by
  intro s
  induction s with
  | nil => intro _; rfl
  | cons c cs ih =>
    intro h
    have hc : c ≠ sep := fun e => h (by simp [e])
    have hcs : sep ∉ cs := fun e => h (by simp [e])
    rw [split, if_neg hc, ih hcs]

theorem split_append (sep : Nat) (rest : Text) :
    ∀ p : Text, sep ∉ p → split sep (p ++ sep :: rest) = p :: split sep rest := by
  intro p
  induction p with
  | nil => intro _; simp [split]
  | cons c cs ih =>
    intro h
    have hc : c ≠ sep := fun e => h (by simp [e])
    have hcs : sep ∉ cs := fun e => h (by simp [e])
    rw [List.cons_append, split, if_neg hc, ih hcs]

/-- The pieces `strings.Split` returns are separated by the separator, free of it, and
make up the text. -/
theorem split_sepBy (sep : Nat) : ∀ s : Text, SepBy sep s (split sep s) := by
  intro s
  induction s with
  | nil => exact ⟨by simp [split], by simp [split], by simp [split, List.intercalate]⟩
  | cons c cs ih =>
    obtain ⟨_, h2, h3⟩ := ih
    refine ⟨split_ne_nil sep _, ?_, ?_⟩
    · unfold split
      by_cases h : c = sep
      · simp only [h, if_true, List.mem_cons]
        rintro p (rfl | hp)
        · simp
        · exact h2 p hp
      · simp only [h, if_false]
        cases hs : split sep cs with
        | nil => exact absurd hs (split_ne_nil sep cs)
        | cons f fs =>
          rw [hs] at h2
          simp only [List.mem_cons]
          rintro p (rfl | hp)
          · have := h2 f (by simp)
            simp only [List.mem_cons, not_or]
            exact ⟨fun e => h e.symm, this⟩
          · exact h2 p (by simp [hp])
    · unfold split
      by_cases h : c = sep
      · simp only [h, if_true]
        cases hs : split sep cs with
        | nil => exact absurd hs (split_ne_nil sep cs)
        | cons f fs =>
          rw [hs] at h3
          rw [intercalate_cons_cons, ← h3]
          simp
      · simp only [h, if_false]
        cases hs : split sep cs with
        | nil => exact absurd hs (split_ne_nil sep cs)
        | cons f fs =>
          rw [hs] at h3
          cases fs with
          | nil =>
            rw [intercalate_single] at h3
            simp [intercalate_single, h3]
          | cons g gs =>
            rw [intercalate_cons_cons] at h3
            rw [intercalate_cons_cons, h3]
            simp

/-- The pieces that a separator separates are those `strings.Split` returns. -/
theorem sepBy_iff (sep : Nat) (s : Text) (ps : List Text) :
    SepBy sep s ps ↔ split sep s = ps := by
  constructor
  · rintro ⟨hne, hfree, hs⟩
    subst hs
    induction ps with
    | nil => exact absurd rfl hne
    | cons a l ih =>
      cases l with
      | nil =>
        rw [intercalate_single]
        exact split_no_sep sep a (hfree a (by simp))
      | cons b l =>
        rw [intercalate_cons_cons, List.append_assoc, List.singleton_append,
          split_append sep _ a (hfree a (by simp)),
          ih (by simp) (fun p hp => hfree p (by simp [hp]))]
  · rintro rfl
    exact split_sepBy sep s

/-- The pieces newlines separate are the raw lines of the scanner, followed by an empty
piece when the text is empty or ends with a newline. -/
theorem split_rawLines : ∀ data : Text,
    split 10 data = rawLines data ++ [[]] ∨
      (split 10 data = rawLines data ∧ rawLines data ≠ []) := by
  intro data
  induction data with
  | nil => left; rfl
  | cons c cs ih =>
    by_cases hc : c = 10
    · subst hc
      rcases ih with h | ⟨h, hne⟩
      · left; simp [split, rawLines, h]
      · right; simp [split, rawLines, h]
    · rcases ih with h | ⟨h, hne⟩
      · cases hr : rawLines cs with
        | nil =>
          right
          rw [hr] at h
          simp [split, rawLines, hc, h, hr]
        | cons l ls =>
          left
          rw [hr] at h
          simp [split, rawLines, hc, h, hr]
      · cases hr : rawLines cs with
        | nil => exact absurd hr hne
        | cons l ls =>
          right
          rw [hr] at h
          simp [split, rawLines, hc, h, hr]

theorem mem_split_rawLines (data seg : Text) :
    seg ∈ split 10 data ↔ (seg ∈ rawLines data ∨ (seg = [] ∧ seg ∈ split 10 data)) := by
  rcases split_rawLines data with h | ⟨h, _⟩
  · rw [h]
    constructor
    · intro hm
      rcases List.mem_append.1 hm with hm | hm
      · left; exact hm
      · right; exact ⟨by simpa using hm, by simp [List.mem_singleton.1 hm]⟩
    · rintro (hm | ⟨_, hm⟩)
      · exact List.mem_append.2 (Or.inl hm)
      · exact hm
  · rw [h]
    constructor
    · intro hm; left; exact hm
    · rintro (hm | ⟨_, hm⟩) <;> exact hm

theorem dropCR_eq_iff (seg line : Text) :
    dropCR seg = line ↔ (seg = line ++ [13] ∨ (seg = line ∧ line.getLast? ≠ some 13)) := by
  unfold dropCR
  by_cases h : seg.getLast? = some 13
  · rw [if_pos h]
    have hseg : seg = seg.dropLast ++ [13] := by
      have := List.dropLast_append_getLast? 13 (by simpa using h)
      exact this.symm
    constructor
    · rintro rfl; left; exact hseg
    · rintro (hl | ⟨hl, hn⟩)
      · rw [hl]; simp
      · rw [hl] at h; exact absurd h hn
  · rw [if_neg h]
    constructor
    · rintro rfl; right; exact ⟨rfl, h⟩
    · rintro (hl | ⟨hl, _⟩)
      · rw [hl] at h; simp at h
      · exact hl

/-- The records of a dataset that have a field separator are the lines the scanner
yields. -/
theorem isLine_iff (data line : Text) (hne : line ≠ []) :
    IsLine data line ↔ line ∈ (rawLines data).map dropCR := by
  unfold IsLine
  constructor
  · rintro ⟨segs, hsep, seg, hseg, hline⟩
    rw [sepBy_iff] at hsep
    subst hsep
    have hd : dropCR seg = line := (dropCR_eq_iff seg line).2 hline
    rcases (mem_split_rawLines data seg).1 hseg with hm | ⟨he, _⟩
    · exact List.mem_map.2 ⟨seg, hm, hd⟩
    · subst he
      exact absurd hd.symm (by simpa [dropCR] using hne)
  · intro hm
    obtain ⟨seg, hseg, hd⟩ := List.mem_map.1 hm
    exact ⟨split 10 data, split_sepBy 10 data, seg,
      (mem_split_rawLines data seg).2 (Or.inl hseg), (dropCR_eq_iff seg line).1 hd⟩

theorem spaceCodes_eq : spaceCodes =
    [[0x09], [0x0A], [0x0B], [0x0C], [0x0D], [0x20], [0xC2, 0x85], [0xC2, 0xA0],
      [0xE1, 0x9A, 0x80], [0xE2, 0x80, 0x80], [0xE2, 0x80, 0x81], [0xE2, 0x80, 0x82],
      [0xE2, 0x80, 0x83], [0xE2, 0x80, 0x84], [0xE2, 0x80, 0x85], [0xE2, 0x80, 0x86],
      [0xE2, 0x80, 0x87], [0xE2, 0x80, 0x88], [0xE2, 0x80, 0x89], [0xE2, 0x80, 0x8A],
      [0xE2, 0x80, 0xA8], [0xE2, 0x80, 0xA9], [0xE2, 0x80, 0xAF], [0xE2, 0x81, 0x9F],
      [0xE3, 0x80, 0x80]] := by decide

/-- At the start of a text, `spaceWidth` reads the encoding of a white-space character
as such. -/
theorem spaceWidth_code : ∀ code ∈ spaceCodes, ∀ x : Text,
    spaceWidth (code ++ x) = code.length ∧ code.length ≠ 0 := by
  rw [spaceCodes_eq]
  intro code hcode x
  simp only [List.mem_cons, List.mem_singleton, List.not_mem_nil, or_false] at hcode
  rcases hcode with h | h | h | h | h | h | h | h | h | h | h | h | h | h | h | h | h | h | h |
    h | h | h | h | h | h <;> subst h <;> exact ⟨rfl, by decide⟩

theorem spaceWidthRev_code : ∀ code ∈ spaceCodes, ∀ x : Text,
    spaceWidthRev (code.reverse ++ x) = code.length := by
  rw [spaceCodes_eq]
  intro code hcode x
  simp only [List.mem_cons, List.mem_singleton, List.not_mem_nil, or_false] at hcode
  rcases hcode with h | h | h | h | h | h | h | h | h | h | h | h | h | h | h | h | h | h | h |
    h | h | h | h | h | h <;> subst h <;> rfl

/-- The first byte of the encoding of a white-space character is no continuation byte;
the bytes after it are. -/
theorem spaceCodes_shape : ∀ code ∈ spaceCodes,
    ∃ h t, code = h :: t ∧ (h < 0x80 ∨ 0xBF < h) ∧ ∀ b ∈ t, 0x80 ≤ b ∧ b ≤ 0xBF := by
  rw [spaceCodes_eq]
  intro code hcode
  simp only [List.mem_cons, List.mem_singleton, List.not_mem_nil, or_false] at hcode
  rcases hcode with h | h | h | h | h | h | h | h | h | h | h | h | h | h | h | h | h | h | h |
    h | h | h | h | h | h <;> subst h <;> exact ⟨_, _, rfl, by decide, by decide⟩

theorem spaceWidth_three (b0 b1 b2 : Nat) (rest : Text) :
    spaceWidth (b0 :: b1 :: b2 :: rest) =
      if (9 ≤ b0 ∧ b0 ≤ 13) ∨ b0 = 32 then 1
      else if b0 = 0xC2 ∧ (b1 = 0x85 ∨ b1 = 0xA0) then 2
      else if (b0 = 0xE1 ∧ b1 = 0x9A ∧ b2 = 0x80) ∨
          (b0 = 0xE2 ∧ b1 = 0x80 ∧
            ((0x80 ≤ b2 ∧ b2 ≤ 0x8A) ∨ b2 = 0xA8 ∨ b2 = 0xA9 ∨ b2 = 0xAF)) ∨
          (b0 = 0xE2 ∧ b1 = 0x81 ∧ b2 = 0x9F) ∨
          (b0 = 0xE3 ∧ b1 = 0x80 ∧ b2 = 0x80) then 3
      else 0 := rfl

theorem spaceWidth_two (b0 b1 : Nat) :
    spaceWidth [b0, b1] =
      if (9 ≤ b0 ∧ b0 ≤ 13) ∨ b0 = 32 then 1
      else if b0 = 0xC2 ∧ (b1 = 0x85 ∨ b1 = 0xA0) then 2 else 0 := rfl

theorem spaceWidth_one (b0 : Nat) :
    spaceWidth [b0] = if (9 ≤ b0 ∧ b0 ≤ 13) ∨ b0 = 32 then 1 else 0 := rfl

theorem spaceWidthRev_three (b0 b1 b2 : Nat) (rest : Text) :
    spaceWidthRev (b0 :: b1 :: b2 :: rest) =
      if (9 ≤ b0 ∧ b0 ≤ 13) ∨ b0 = 32 then 1
      else if b1 = 0xC2 ∧ (b0 = 0x85 ∨ b0 = 0xA0) then 2
      else if (b2 = 0xE1 ∧ b1 = 0x9A ∧ b0 = 0x80) ∨
          (b2 = 0xE2 ∧ b1 = 0x80 ∧
            ((0x80 ≤ b0 ∧ b0 ≤ 0x8A) ∨ b0 = 0xA8 ∨ b0 = 0xA9 ∨ b0 = 0xAF)) ∨
          (b2 = 0xE2 ∧ b1 = 0x81 ∧ b0 = 0x9F) ∨
          (b2 = 0xE3 ∧ b1 = 0x80 ∧ b0 = 0x80) then 3
      else 0 := rfl

theorem spaceWidthRev_two (b0 b1 : Nat) :
    spaceWidthRev [b0, b1] =
      if (9 ≤ b0 ∧ b0 ≤ 13) ∨ b0 = 32 then 1
      else if b1 = 0xC2 ∧ (b0 = 0x85 ∨ b0 = 0xA0) then 2 else 0 := rfl

theorem spaceWidthRev_one (b0 : Nat) :
    spaceWidthRev [b0] = if (9 ≤ b0 ∧ b0 ≤ 13) ∨ b0 = 32 then 1 else 0 := rfl

theorem mem_spaceCodes_one (b0 : Nat) (h : (9 ≤ b0 ∧ b0 ≤ 13) ∨ b0 = 32) :
    [b0] ∈ spaceCodes := by
  rw [spaceCodes_eq]
  have : b0 = 9 ∨ b0 = 10 ∨ b0 = 11 ∨ b0 = 12 ∨ b0 = 13 ∨ b0 = 32 := by omega
  rcases this with h | h | h | h | h | h <;> subst h <;> simp

theorem mem_spaceCodes_two (b0 b1 : Nat) (h : b0 = 0xC2 ∧ (b1 = 0x85 ∨ b1 = 0xA0)) :
    [b0, b1] ∈ spaceCodes := by
  rw [spaceCodes_eq]
  obtain ⟨rfl, rfl | rfl⟩ := h <;> simp

theorem mem_spaceCodes_three (b0 b1 b2 : Nat)
    (h : (b0 = 0xE1 ∧ b1 = 0x9A ∧ b2 = 0x80) ∨
      (b0 = 0xE2 ∧ b1 = 0x80 ∧ ((0x80 ≤ b2 ∧ b2 ≤ 0x8A) ∨ b2 = 0xA8 ∨ b2 = 0xA9 ∨ b2 = 0xAF)) ∨
      (b0 = 0xE2 ∧ b1 = 0x81 ∧ b2 = 0x9F) ∨ (b0 = 0xE3 ∧ b1 = 0x80 ∧ b2 = 0x80)) :
    [b0, b1, b2] ∈ spaceCodes := by
  rw [spaceCodes_eq]
  rcases h with ⟨rfl, rfl, rfl⟩ | ⟨rfl, rfl, h⟩ | ⟨rfl, rfl, rfl⟩ | ⟨rfl, rfl, rfl⟩
  · simp
  · have : b2 = 0x80 ∨ b2 = 0x81 ∨ b2 = 0x82 ∨ b2 = 0x83 ∨ b2 = 0x84 ∨ b2 = 0x85 ∨
        b2 = 0x86 ∨ b2 = 0x87 ∨ b2 = 0x88 ∨ b2 = 0x89 ∨ b2 = 0x8A ∨ b2 = 0xA8 ∨
        b2 = 0xA9 ∨ b2 = 0xAF := by omega
    rcases this with h | h | h | h | h | h | h | h | h | h | h | h | h | h <;>
      subst h <;> simp
  · simp
  · simp

/-- What `spaceWidth` reads at the start of a text is the encoding of a white-space
character. -/
theorem spaceWidth_pos : ∀ s : Text, spaceWidth s ≠ 0 →
    ∃ code ∈ spaceCodes, ∃ x, s = code ++ x := by
  intro s hs
  match s, hs with
  | [], hs => exact absurd rfl hs
  | [b0], hs =>
    rw [spaceWidth_one] at hs
    split_ifs at hs with h1
    · exact ⟨[b0], mem_spaceCodes_one b0 h1, [], rfl⟩
    · exact absurd rfl hs
  | [b0, b1], hs =>
    rw [spaceWidth_two] at hs
    split_ifs at hs with h1 h2
    · exact ⟨[b0], mem_spaceCodes_one b0 h1, [b1], rfl⟩
    · exact ⟨[b0, b1], mem_spaceCodes_two b0 b1 h2, [], rfl⟩
    · exact absurd rfl hs
  | b0 :: b1 :: b2 :: rest, hs =>
    rw [spaceWidth_three] at hs
    split_ifs at hs with h1 h2 h3
    · exact ⟨[b0], mem_spaceCodes_one b0 h1, b1 :: b2 :: rest, rfl⟩
    · exact ⟨[b0, b1], mem_spaceCodes_two b0 b1 h2, b2 :: rest, rfl⟩
    · exact ⟨[b0, b1, b2], mem_spaceCodes_three b0 b1 b2 h3, rest, rfl⟩
    · exact absurd rfl hs

theorem spaceWidthRev_pos : ∀ s : Text, spaceWidthRev s ≠ 0 →
    ∃ code ∈ spaceCodes, ∃ x, s = code.reverse ++ x := by
  intro s hs
  match s, hs with
  | [], hs => exact absurd rfl hs
  | [b0], hs =>
    rw [spaceWidthRev_one] at hs
    split_ifs at hs with h1
    · exact ⟨[b0], mem_spaceCodes_one b0 h1, [], rfl⟩
    · exact absurd rfl hs
  | [b0, b1], hs =>
    rw [spaceWidthRev_two] at hs
    split_ifs at hs with h1 h2
    · exact ⟨[b0], mem_spaceCodes_one b0 h1, [b1], rfl⟩
    · exact ⟨[b1, b0], mem_spaceCodes_two b1 b0 h2, [], rfl⟩
    · exact absurd rfl hs
  | b0 :: b1 :: b2 :: rest, hs =>
    rw [spaceWidthRev_three] at hs
    split_ifs at hs with h1 h2 h3
    · exact ⟨[b0], mem_spaceCodes_one b0 h1, b1 :: b2 :: rest, rfl⟩
    · exact ⟨[b1, b0], mem_spaceCodes_two b1 b0 h2, b2 :: rest, rfl⟩
    · exact ⟨[b2, b1, b0], mem_spaceCodes_three b2 b1 b0 h3, rest, rfl⟩
    · exact absurd rfl hs

theorem strip_zero (w : Text → Nat) (fuel : Nat) (s : Text) (h : w s = 0) :
    strip w fuel s = s := by
  cases fuel <;> simp [strip, h]

theorem strip_codes (w : Text → Nat) (C : List Text)
    (hcode : ∀ code ∈ C, ∀ x : Text, w (code ++ x) = code.length ∧ code.length ≠ 0)
    (rest : Text) :
    ∀ (codes : List Text) (fuel : Nat), (∀ c ∈ codes, c ∈ C) → codes.length ≤ fuel →
      strip w fuel (codes.flatten ++ rest) = strip w (fuel - codes.length) rest := by
  intro codes
  induction codes with
  | nil => intro fuel _ _; simp
  | cons code codes ih =>
    intro fuel hC hlen
    cases fuel with
    | zero => simp at hlen
    | succ f =>
      obtain ⟨hw, hne⟩ := hcode code (hC code (by simp)) (codes.flatten ++ rest)
      have hlen' : codes.length ≤ f := by simpa using hlen
      have hstep : strip w (f + 1) (code ++ (codes.flatten ++ rest))
          = strip w f (codes.flatten ++ rest) := by
        simp only [strip, hw, hne, if_false, List.drop_left]
      rw [List.flatten_cons, List.append_assoc, hstep,
        ih f (fun c hc => hC c (by simp [hc])) hlen']
      simp

theorem strip_decomp (w : Text → Nat) (C : List Text)
    (hcode : ∀ code ∈ C, ∀ x : Text, w (code ++ x) = code.length ∧ code.length ≠ 0)
    (hpos : ∀ s : Text, w s ≠ 0 → ∃ code ∈ C, ∃ x, s = code ++ x) :
    ∀ (fuel : Nat) (s : Text),
      ∃ codes : List Text, (∀ c ∈ codes, c ∈ C) ∧ s = codes.flatten ++ strip w fuel s ∧
        (s.length ≤ fuel → w (strip w fuel s) = 0) := by
  have hnil : w [] = 0 := by
    by_contra h
    obtain ⟨code, hc, x, hx⟩ := hpos [] h
    have := (hcode code hc x).2
    have hcn : code = [] := (List.append_eq_nil.1 hx.symm).1
    exact this (by simp [hcn])
  intro fuel
  induction fuel with
  | zero =>
    intro s
    refine ⟨[], by simp, by simp [strip], ?_⟩
    intro hl
    have : s = [] := List.length_eq_zero.1 (Nat.le_zero.1 hl)
    simp [strip, this, hnil]
  | succ f ih =>
    intro s
    by_cases hw : w s = 0
    · refine ⟨[], by simp, by simp [strip, hw], ?_⟩
      intro _
      simp [strip, hw]
    · obtain ⟨code, hc, x, hx⟩ := hpos s hw
      subst hx
      obtain ⟨hwc, hne⟩ := hcode code hc x
      have hstep : strip w (f + 1) (code ++ x) = strip w f x := by
        simp only [strip, hwc, hne, if_false, List.drop_left]
      obtain ⟨codes, hC, hdec, hdone⟩ := ih x
      refine ⟨code :: codes, ?_, ?_, ?_⟩
      · intro c hcm
        rcases List.mem_cons.1 hcm with rfl | hcm
        · exact hc
        · exact hC c hcm
      · rw [hstep, List.flatten_cons, List.append_assoc, ← hdec]
      · intro hl
        rw [hstep]
        apply hdone
        have : 0 < code.length := Nat.pos_of_ne_zero hne
        simp only [List.length_append] at hl
        omega

theorem length_le_flatten (C : List Text) (hne : ∀ code ∈ C, code.length ≠ 0) :
    ∀ codes : List Text, (∀ c ∈ codes, c ∈ C) → codes.length ≤ codes.flatten.length := by
  intro codes
  induction codes with
  | nil => intro _; simp
  | cons c codes ih =>
    intro hC
    have h1 := hne c (hC c (by simp))
    have h2 := ih (fun x hx => hC x (by simp [hx]))
    simp only [List.length_cons, List.flatten_cons, List.length_append]
    omega

/-- The encodings of the white-space characters, last byte first. -/
theorem revCodes_code : ∀ code ∈ spaceCodes.map List.reverse, ∀ x : Text,
    spaceWidthRev (code ++ x) = code.length ∧ code.length ≠ 0 := by
  intro code hcode x
  obtain ⟨c, hc, rfl⟩ := List.mem_map.1 hcode
  rw [spaceWidthRev_code c hc x, List.length_reverse]
  exact ⟨rfl, (spaceWidth_code c hc []).2⟩

theorem revCodes_pos : ∀ s : Text, spaceWidthRev s ≠ 0 →
    ∃ code ∈ spaceCodes.map List.reverse, ∃ x, s = code ++ x := by
  intro s hs
  obtain ⟨c, hc, x, hx⟩ := spaceWidthRev_pos s hs
  exact ⟨c.reverse, List.mem_map.2 ⟨c, hc, rfl⟩, x, hx⟩

theorem spaceRun_reverse (ds : List Text) (h : ∀ d ∈ ds, d ∈ spaceCodes.map List.reverse) :
    SpaceRun ds.flatten.reverse := by
  refine ⟨(ds.map List.reverse).reverse, ?_, ?_⟩
  · intro code hcode
    rw [List.mem_reverse] at hcode
    obtain ⟨d, hd, rfl⟩ := List.mem_map.1 hcode
    obtain ⟨c, hc, rfl⟩ := List.mem_map.1 (h d hd)
    simpa using hc
  · rw [List.reverse_flatten]

/-- What `strings.TrimSpace` returns is the text without its leading and trailing white
space. -/
theorem trimSpace_trimmed (tok : Text) : Trimmed tok (trimSpace tok) := by
  obtain ⟨cs, hcs, hL, hLdone⟩ :=
    strip_decomp spaceWidth spaceCodes spaceWidth_code spaceWidth_pos tok.length tok
  have hLlen : (strip spaceWidth tok.length tok).length ≤ tok.length := by
    have := congrArg List.length hL
    simp only [List.length_append] at this
    omega
  obtain ⟨ds, hds, hR, hRdone⟩ :=
    strip_decomp spaceWidthRev (spaceCodes.map List.reverse) revCodes_code revCodes_pos
      tok.length (strip spaceWidth tok.length tok).reverse
  have hcore : strip spaceWidth tok.length tok = trimSpace tok ++ ds.flatten.reverse := by
    have := congrArg List.reverse hR
    rw [List.reverse_reverse, List.reverse_append] at this
    exact this
  refine ⟨cs.flatten, ds.flatten.reverse, ?_, ⟨cs, hcs, rfl⟩, spaceRun_reverse ds hds, ?_, ?_⟩
  · rw [List.append_assoc, ← hcore]
    exact hL
  · intro code hcode hpre
    obtain ⟨x, hx⟩ := hpre
    have h0 := hLdone (le_refl _)
    rw [hcore, ← hx, List.append_assoc] at h0
    rw [(spaceWidth_code code hcode _).1] at h0
    exact (spaceWidth_code code hcode []).2 h0
  · intro code hcode hsuf
    obtain ⟨x, hx⟩ := hsuf
    have h0 := hRdone (by rw [List.length_reverse]; exact hLlen)
    have hrev : strip spaceWidthRev tok.length (strip spaceWidth tok.length tok).reverse
        = code.reverse ++ x.reverse := by
      have : trimSpace tok = x ++ code := hx.symm
      unfold trimSpace at this
      have h2 := congrArg List.reverse this
      rw [List.reverse_reverse, List.reverse_append] at h2
      exact h2
    rw [hrev, spaceWidthRev_code code hcode] at h0
    exact (spaceWidth_code code hcode []).2 h0

theorem spaceRun_head (z : Nat) (r : Text) (h : SpaceRun (z :: r)) : z < 0x80 ∨ 0xBF < z := by
  obtain ⟨codes, hC, hz⟩ := h
  cases codes with
  | nil => simp at hz
  | cons d ds =>
    obtain ⟨h', t', rfl, hh, _⟩ := spaceCodes_shape d (hC d (by simp))
    simp only [List.flatten_cons, List.cons_append, List.cons.injEq] at hz
    rw [hz.1]
    exact hh

/-- A text that does not begin with a white-space character does not come to begin
with one when white space is appended to it. -/
theorem spaceWidth_core (core post : Text) (hne : core ≠ [])
    (hpre : ∀ code ∈ spaceCodes, ¬ code <+: core) (hpost : SpaceRun post) :
    spaceWidth (core ++ post) = 0 := by
  by_contra hw
  obtain ⟨code, hc, x, hx⟩ := spaceWidth_pos _ hw
  rcases List.append_eq_append_iff.1 hx with ⟨a', ha, hp⟩ | ⟨c', hc', _⟩
  · cases a' with
    | nil =>
      exact hpre code hc ⟨[], by rw [ha]; simp⟩
    | cons z zs =>
      obtain ⟨h', t', rfl, _, ht⟩ := spaceCodes_shape code hc
      cases core with
      | nil => exact hne rfl
      | cons c0 cs' =>
        simp only [List.cons_append, List.cons.injEq] at ha
        have hz : z ∈ t' := by rw [ha.2]; simp
        have hcont := ht z hz
        rw [hp] at hpost
        have := spaceRun_head z (zs ++ x) hpost
        omega
  · exact hpre code hc ⟨c', hc'.symm⟩

/-- The text without its leading and trailing white space is what `strings.TrimSpace`
returns. -/
theorem trimmed_unique (tok core : Text) (h : Trimmed tok core) : trimSpace tok = core := by
  obtain ⟨pre, post, htok, ⟨cs, hcs, hpre⟩, ⟨ds, hds, hpost⟩, hnp, hns⟩ := h
  have hne : ∀ code ∈ spaceCodes, code.length ≠ 0 := fun c hc => (spaceWidth_code c hc []).2
  have hcl := length_le_flatten spaceCodes hne cs hcs
  have hdl := length_le_flatten spaceCodes hne ds hds
  have hlen : tok.length = pre.length + core.length + post.length := by
    rw [htok]; simp only [List.length_append]
  rw [← hpre] at hcl
  rw [← hpost] at hdl
  have hleft : strip spaceWidth tok.length tok
      = strip spaceWidth (tok.length - cs.length) (core ++ post) := by
    have := strip_codes spaceWidth spaceCodes spaceWidth_code (core ++ post) cs tok.length hcs
      (by omega)
    rw [← hpre, ← List.append_assoc, ← htok] at this
    exact this
  by_cases hcore : core = []
  · subst hcore
    have h1 : strip spaceWidth tok.length tok = [] := by
      rw [hleft]
      have := strip_codes spaceWidth spaceCodes spaceWidth_code [] ds (tok.length - cs.length)
        hds (by simp only [List.length_nil] at hlen; omega)
      rw [List.nil_append, hpost]
      rw [List.append_nil] at this
      rw [this]
      exact strip_zero _ _ _ rfl
    unfold trimSpace
    rw [h1]
    simp [strip_zero spaceWidthRev _ [] rfl]
  · have h1 : strip spaceWidth tok.length tok = core ++ post := by
      rw [hleft]
      exact strip_zero _ _ _ (spaceWidth_core core post hcore hnp ⟨ds, hds, hpost⟩)
    have hrevC : ∀ d ∈ (ds.map List.reverse).reverse, d ∈ spaceCodes.map List.reverse := by
      intro d hd
      rw [List.mem_reverse] at hd
      obtain ⟨c, hc, rfl⟩ := List.mem_map.1 hd
      exact List.mem_map.2 ⟨c, hds c hc, rfl⟩
    have h0 : spaceWidthRev core.reverse = 0 := by
      by_contra hw
      obtain ⟨code, hc, x, hx⟩ := spaceWidthRev_pos _ hw
      apply hns code hc
      refine ⟨x.reverse, ?_⟩
      have := congrArg List.reverse hx
      rw [List.reverse_reverse, List.reverse_append, List.reverse_reverse] at this
      exact this.symm
    unfold trimSpace
    rw [h1, List.reverse_append, hpost, List.reverse_flatten,
      strip_codes spaceWidthRev (spaceCodes.map List.reverse) revCodes_code core.reverse
        _ tok.length hrevC (by simp; omega),
      strip_zero _ _ _ h0, List.reverse_reverse]

theorem trimmed_iff (tok core : Text) : Trimmed tok core ↔ trimSpace tok = core :=
  ⟨trimmed_unique tok core, fun h => h ▸ trimSpace_trimmed tok⟩

theorem mem_tokensOf (lines : List Text) (x : Text) :
    x ∈ tokensOf lines ↔
      ∃ line ∈ lines, 2 ≤ (split 59 line).length ∧
        ∃ tok ∈ split 124 ((split 59 line).headD []), trimSpace tok = x := by
  unfold tokensOf
  simp only [List.mem_flatten, List.mem_map]
  constructor
  · rintro ⟨l, ⟨line, hline, rfl⟩, hx⟩
    unfold lineTokens at hx
    by_cases h : (split 59 line).length < 2
    · simp [h] at hx
    · simp only [h, if_false, List.mem_map] at hx
      exact ⟨line, hline, Nat.not_lt.1 h, hx⟩
  · rintro ⟨line, hline, h2, tok, htok, rfl⟩
    refine ⟨lineTokens line, ⟨line, hline, rfl⟩, ?_⟩
    unfold lineTokens
    simp only [Nat.not_lt.2 h2, if_false, List.mem_map]
    exact ⟨tok, htok, rfl⟩

/-- The entries listed in a dataset, in the words of the specification, are the texts
`loadDump` passes to `AddByString`. -/
theorem listedToken_iff (data core : Text) :
    ListedToken data core ↔ core ∈ tokensOf ((rawLines data).map dropCR) := by
  rw [mem_tokensOf]
  constructor
  · rintro ⟨line, hline, fields, hf, h2, toks, ht, tok, htok, htrim⟩
    rw [sepBy_iff] at hf ht
    subst hf
    subst ht
    have hne : line ≠ [] := by
      rintro rfl
      simp [split] at h2
    exact ⟨line, (isLine_iff data line hne).1 hline, h2, tok, htok,
      (trimmed_iff tok core).1 htrim⟩
  · rintro ⟨line, hline, h2, tok, htok, htrim⟩
    have hne : line ≠ [] := by
      rintro rfl
      simp [split] at h2
    exact ⟨line, (isLine_iff data line hne).2 hline, split 59 line, split_sepBy 59 line, h2,
      split 124 ((split 59 line).headD []), split_sepBy 124 _, tok, htok,
      (trimmed_iff tok core).2 htrim⟩

theorem numeral_decimal : ∀ (s : Text) (acc m : Nat),
    numeral digitVal 10 s acc = some m ↔
      (∀ b ∈ s, 48 ≤ b ∧ b ≤ 57) ∧
        m = acc * 10 ^ s.length + Nat.ofDigits 10 (s.reverse.map (fun b => b - 48)) := by
  intro s
  induction s with
  | nil =>
    intro acc m
    simp [numeral, eq_comm]
  | cons c cs ih =>
    intro acc m
    by_cases hc : 48 ≤ c ∧ c ≤ 57
    · have hd : digitVal c = some (c - 48) := by simp [digitVal, hc]
      simp only [numeral, hd, ih, List.mem_cons, forall_eq_or_imp, hc, true_and,
        List.reverse_cons, List.map_append, List.map_cons, List.map_nil, Nat.ofDigits_append,
        Nat.ofDigits_singleton, List.length_map, List.length_reverse, List.length_cons]
      constructor
      · rintro ⟨h1, h2⟩
        refine ⟨h1, ?_⟩
        rw [h2]; ring
      · rintro ⟨h1, h2⟩
        refine ⟨h1, ?_⟩
        rw [h2]; ring
    · have hd : digitVal c = none := by simp [digitVal, hc]
      simp only [numeral, hd, List.mem_cons, forall_eq_or_imp, hc, false_and]
      exact ⟨fun e => (by cases e), fun e => e.elim⟩

theorem field_decimal (maxVal : Nat) (s : Text) (n : Nat) :
    field digitVal 10 3 maxVal s = some n ↔ Decimal s n ∧ n ≤ maxVal := by
  unfold field Decimal
  by_cases h : s = [] ∨ 3 < s.length
  · rw [if_pos h]
    constructor
    · intro e; cases e
    · rintro ⟨⟨h1, h2, _⟩, _⟩
      rcases h with h | h
      · exact absurd h h1
      · omega
  · rw [if_neg h]
    push_neg at h
    cases hn : numeral digitVal 10 s 0 with
    | none =>
      constructor
      · intro e; cases e
      · rintro ⟨⟨_, _, h3, h4⟩, _⟩
        have := (numeral_decimal s 0 n).2 ⟨h3, by simpa using h4⟩
        rw [hn] at this
        cases this
    | some m =>
      have hm := (numeral_decimal s 0 m).1 hn
      simp only [zero_mul, zero_add] at hm
      constructor
      · intro e
        by_cases hle : m ≤ maxVal
        · simp only [hle, if_true, Option.some.injEq] at e
          subst e
          exact ⟨⟨h.1, h.2, hm.1, hm.2⟩, hle⟩
        · simp [hle] at e
      · rintro ⟨⟨_, _, _, h4⟩, hle⟩
        have : m = n := by rw [hm.2, h4]
        subst this
        simp [hle]

theorem fields_four (f : Text → Option Nat) (l : List Text) (n1 n2 n3 n4 : Nat) :
    fields f l = some [n1, n2, n3, n4] ↔
      ∃ o1 o2 o3 o4, l = [o1, o2, o3, o4] ∧ f o1 = some n1 ∧ f o2 = some n2 ∧
        f o3 = some n3 ∧ f o4 = some n4 := by
  have one : ∀ (o : Text) (os : List Text) (n : Nat) (ns : List Nat),
      fields f (o :: os) = some (n :: ns) ↔ f o = some n ∧ fields f os = some ns := by
    intro o os n ns
    simp only [fields]
    cases f o <;> cases fields f os <;> simp
  have nil : ∀ (os : List Text), fields f os = some [] ↔ os = [] := by
    intro os
    cases os with
    | nil => simp [fields]
    | cons o os =>
      simp only [fields]
      cases f o <;> cases fields f os <;> simp
  have nilc : ∀ (n : Nat) (ns : List Nat), fields f [] ≠ some (n :: ns) := by
    intro n ns; simp [fields]
  constructor
  · intro h
    match l, h with
    | [], h => exact absurd h (nilc _ _)
    | [o1], h =>
      rw [one] at h; exact absurd h.2 (nilc _ _)
    | [o1, o2], h =>
      rw [one, one] at h; exact absurd h.2.2 (nilc _ _)
    | [o1, o2, o3], h =>
      rw [one, one, one] at h; exact absurd h.2.2.2 (nilc _ _)
    | o1 :: o2 :: o3 :: o4 :: rest, h =>
      rw [one, one, one, one, nil] at h
      obtain ⟨h1, h2, h3, h4, rfl⟩ := h
      exact ⟨o1, o2, o3, o4, rfl, h1, h2, h3, h4⟩
  · rintro ⟨o1, o2, o3, o4, rfl, h1, h2, h3, h4⟩
    rw [one, one, one, one, nil]
    exact ⟨h1, h2, h3, h4, rfl⟩

/-- The texts `parseIPv4` accepts are the IPv4 addresses in dotted decimal. -/
theorem parseIPv4_iff (s : Text) (a : Nat) : parseIPv4 s = some a ↔ IsIPv4 s a := by
  unfold parseIPv4 IsIPv4
  constructor
  · intro h
    split at h
    · rename_i n1 n2 n3 n4 hf
      obtain ⟨o1, o2, o3, o4, hs, h1, h2, h3, h4⟩ := (fields_four _ _ _ _ _ _).1 hf
      rw [field_decimal] at h1 h2 h3 h4
      refine ⟨o1, o2, o3, o4, n1, n2, n3, n4, (sepBy_iff 46 s _).2 hs, h1.1, h1.2, h2.1, h2.2,
        h3.1, h3.2, h4.1, h4.2, ?_⟩
      have := Option.some.inj h
      omega
    · cases h
  · rintro ⟨o1, o2, o3, o4, n1, n2, n3, n4, hs, h1, h1', h2, h2', h3, h3', h4, h4', ha⟩
    have hf : fields (field digitVal 10 3 255) (split 46 s) = some [n1, n2, n3, n4] :=
      (fields_four _ _ _ _ _ _).2 ⟨o1, o2, o3, o4, (sepBy_iff 46 s _).1 hs,
        (field_decimal _ _ _).2 ⟨h1, h1'⟩, (field_decimal _ _ _).2 ⟨h2, h2'⟩,
        (field_decimal _ _ _).2 ⟨h3, h3'⟩, (field_decimal _ _ _).2 ⟨h4, h4'⟩⟩
    rw [hf]
    simp only [Option.some.injEq]
    omega

theorem toBits_length : ∀ (w a : Nat), (toBits w a).length = w := by
  intro w
  induction w with
  | zero => intro a; rfl
  | succ w ih => intro a; simp [toBits, ih]

theorem isIPv4_shape (s : Text) (a : Nat) (h : IsIPv4 s a) :
    46 ∈ s ∧ 47 ∉ s ∧ a < 2 ^ 32 := by
  obtain ⟨o1, o2, o3, o4, n1, n2, n3, n4, ⟨_, _, hs⟩, h1, h1', h2, h2', h3, h3', h4, h4', ha⟩ := h
  have hs' : s = o1 ++ 46 :: (o2 ++ 46 :: (o3 ++ 46 :: o4)) := by
    rw [hs]; simp [List.intercalate, List.intersperse]
  have hd : ∀ o n, Decimal o n → 47 ∉ o := by
    intro o n hdec hmem
    have := hdec.2.2.1 47 hmem
    omega
  refine ⟨by rw [hs']; simp, ?_, by omega⟩
  rw [hs']
  simp only [List.mem_append, List.mem_cons, not_or]
  exact ⟨hd o1 n1 h1, by decide, hd o2 n2 h2, by decide, hd o3 n3 h3, by decide, hd o4 n4 h4⟩

/-- The texts the index reads as IPv4 addresses are the IPv4 addresses in dotted
decimal, and their key is the 32 bits of their value. -/
theorem parseAddr_v4_iff (s : Text) (bits : List Bool) :
    parseAddr s = some (.v4, bits) ↔ ∃ a, IsIPv4 s a ∧ bits = toBits 32 a := by
  unfold parseAddr
  constructor
  · intro h
    by_cases hdot : 46 ∈ s
    · rw [if_pos hdot] at h
      cases hp : parseIPv4 s with
      | none => rw [hp] at h; cases h
      | some a =>
        rw [hp] at h
        simp only [Option.map_some', Option.some.injEq, Prod.mk.injEq, true_and] at h
        exact ⟨a, (parseIPv4_iff s a).1 hp, h.symm⟩
    · rw [if_neg hdot] at h
      cases hp : parseIPv6 s with
      | none => rw [hp] at h; cases h
      | some a => rw [hp] at h; simp at h
  · rintro ⟨a, ha, rfl⟩
    rw [if_pos (isIPv4_shape s a ha).1, (parseIPv4_iff s a).2 ha]
    rfl

theorem sepBy_single (sep : Nat) (s a : Text) (h : split sep s = [a]) : s = a := by
  have := (split_sepBy sep s).2.2
  rw [h, intercalate_single] at this
  exact this

/-- The texts the index reads as IPv4 networks are the IPv4 addresses and CIDR ranges,
and their key is the leading bits of the base address, as many as the prefix length. -/
theorem parseCIDR_v4_iff (s : Text) (p : List Bool) :
    parseCIDR s = some (.v4, p) ↔
      ∃ base len, IsIPv4Range s base len ∧ p = (toBits 32 base).take len := by
  unfold parseCIDR IsIPv4Range
  constructor
  · intro h
    split at h
    · rename_i a hsplit
      have hsa := sepBy_single 47 s a hsplit
      subst hsa
      obtain ⟨base, hb, rfl⟩ := (parseAddr_v4_iff s p).1 h
      refine ⟨base, 32, Or.inl ⟨hb, rfl⟩, ?_⟩
      rw [List.take_of_length_le (by rw [toBits_length])]
    · rename_i a n hsplit
      cases ha : parseAddr a with
      | none => rw [ha] at h; simp at h
      | some fb =>
        obtain ⟨fam, bits⟩ := fb
        cases hn : field digitVal 10 3 128 n with
        | none => rw [ha, hn] at h; simp at h
        | some len =>
          rw [ha, hn] at h
          simp only at h
          by_cases hle : len ≤ bits.length
          · rw [if_pos hle] at h
            simp only [Option.some.injEq, Prod.mk.injEq] at h
            obtain ⟨rfl, rfl⟩ := h
            obtain ⟨base, hb, rfl⟩ := (parseAddr_v4_iff a bits).1 ha
            rw [toBits_length] at hle
            exact ⟨base, len, Or.inr ⟨a, n, (sepBy_iff 47 s _).2 hsplit, hb,
              ((field_decimal 128 n len).1 hn).1, hle⟩, rfl⟩
          · rw [if_neg hle] at h; cases h
    · cases h
  · rintro ⟨base, len, hr, rfl⟩
    rcases hr with ⟨hb, rfl⟩ | ⟨addr, l, hsep, hb, hdec, hle⟩
    · rw [split_no_sep 47 s (isIPv4_shape s base hb).2.1]
      simp only
      rw [(parseAddr_v4_iff s _).2 ⟨base, hb, rfl⟩,
        List.take_of_length_le (by rw [toBits_length])]
    · rw [(sepBy_iff 47 s _).1 hsep]
      simp only
      rw [(parseAddr_v4_iff addr _).2 ⟨base, hb, rfl⟩,
        (field_decimal 128 l len).2 ⟨hdec, by omega⟩]
      simp only [toBits_length, hle, if_true]

theorem toBits_take : ∀ (w n a : Nat), n ≤ w →
    (toBits w a).take n = toBits n (a / 2 ^ (w - n)) := by
  intro w
  induction w with
  | zero =>
    intro n a hn
    have : n = 0 := by omega
    subst this
    rfl
  | succ w ih =>
    intro n a hn
    cases n with
    | zero => simp [toBits]
    | succ n =>
      have hn' : n ≤ w := by omega
      have hdiv : a / 2 ^ (w - n) / 2 ^ n = a / 2 ^ w := by
        rw [Nat.div_div_eq_div_mul, ← pow_add]
        congr 2
        omega
      simp only [toBits, List.take_succ_cons, ih n a hn', Nat.add_sub_add_right, hdiv]

theorem toBits_inj : ∀ (n x y : Nat), toBits n x = toBits n y ↔ x % 2 ^ n = y % 2 ^ n := by
  intro n
  induction n with
  | zero => intro x y; simp [toBits, Nat.mod_one]
  | succ n ih =>
    intro x y
    simp only [toBits, List.cons.injEq, ih, Nat.mod_pow_succ]
    have hx : x / 2 ^ n % 2 < 2 := Nat.mod_lt _ (by decide)
    have hy : y / 2 ^ n % 2 < 2 := Nat.mod_lt _ (by decide)
    have hpos : 0 < 2 ^ n := Nat.pow_pos (by decide)
    constructor
    · rintro ⟨hb, hm⟩
      have hb' : x / 2 ^ n % 2 = y / 2 ^ n % 2 := by
        rcases Nat.lt_or_ge (x / 2 ^ n % 2) 1 with h1 | h1 <;>
          rcases Nat.lt_or_ge (y / 2 ^ n % 2) 1 with h2 | h2
        · omega
        · have e1 : x / 2 ^ n % 2 = 0 := by omega
          have e2 : y / 2 ^ n % 2 = 1 := by omega
          rw [e1, e2] at hb; simp at hb
        · have e1 : x / 2 ^ n % 2 = 1 := by omega
          have e2 : y / 2 ^ n % 2 = 0 := by omega
          rw [e1, e2] at hb; simp at hb
        · omega
      rw [hm, hb']
    · intro h
      have hxm : x % 2 ^ n < 2 ^ n := Nat.mod_lt _ hpos
      have hym : y % 2 ^ n < 2 ^ n := Nat.mod_lt _ hpos
      have hb' : x / 2 ^ n % 2 = y / 2 ^ n % 2 := by
        rcases Nat.lt_or_ge (x / 2 ^ n % 2) 1 with h1 | h1 <;>
          rcases Nat.lt_or_ge (y / 2 ^ n % 2) 1 with h2 | h2
        · omega
        · have e1 : x / 2 ^ n % 2 = 0 := by omega
          have e2 : y / 2 ^ n % 2 = 1 := by omega
          rw [e1, e2] at h; simp at h; omega
        · have e1 : x / 2 ^ n % 2 = 1 := by omega
          have e2 : y / 2 ^ n % 2 = 0 := by omega
          rw [e1, e2] at h; simp at h; omega
        · omega
      refine ⟨by rw [hb'], ?_⟩
      rw [hb'] at h
      omega

/-- An IPv4 address begins with the leading bits of a range exactly when it lies inside
the range. -/
theorem prefix_iff_inRange (a base len : Nat) (ha : a < 2 ^ 32) (hb : base < 2 ^ 32)
    (hlen : len ≤ 32) :
    (toBits 32 base).take len <+: toBits 32 a ↔ InRange a base len := by
  unfold InRange
  have hl : ((toBits 32 base).take len).length = len := by
    rw [List.length_take, toBits_length]; omega
  rw [List.prefix_iff_eq_take, hl, toBits_take 32 len base hlen, toBits_take 32 len a hlen,
    toBits_inj]
  have hpow : (2 : Nat) ^ 32 = 2 ^ (32 - len) * 2 ^ len := by
    rw [← pow_add]; congr 1; omega
  have h1 : a / 2 ^ (32 - len) < 2 ^ len :=
    Nat.div_lt_of_lt_mul (by rw [← hpow]; exact ha)
  have h2 : base / 2 ^ (32 - len) < 2 ^ len :=
    Nat.div_lt_of_lt_mul (by rw [← hpow]; exact hb)
  rw [Nat.mod_eq_of_lt h1, Nat.mod_eq_of_lt h2]
  exact eq_comm

theorem loadDump_eq (fs : FS) (path : Text) (file : File) (h : fs path = some file) :
    loadDump fs path = scanFile file := by
  simp [loadDump, osOpen, h]

theorem loadDump_ok (fs : FS) (path : Text) (db : IPTree) (h : loadDump fs path = .ok db) :
    ∃ file, fs path = some file ∧ file.readErr = none ∧ buildIndex file.data = .ok db := by
  cases hf : fs path with
  | none => simp [loadDump, osOpen, hf] at h
  | some file =>
    rw [loadDump_eq fs path file hf] at h
    exact ⟨file, rfl, scanFile_ok file db h⟩

theorem checkIps_valid (db : IPTree) (ips : List Text) (encodeErr : Option GoError)
    (hne : ips ≠ []) (h : ∀ ip ∈ ips, (GetByString db ip).2.2 = none) :
    checkIps db (.ok ips) encodeErr
      = (.encoded (ips.foldl (fun r ip => r.set ip (member db ip)) []) encodeErr, ips) := by
  have hlen : ¬ ips.length < 1 := by
    cases ips with
    | nil => exact absurd rfl hne
    | cons a l => simp
  simp [checkIps, hlen, checkLoop_ok db ips [] [] h]

theorem netBits_iff (tok : Text) (p : List Bool) :
    netBits tok = some p ↔ ∃ fam, parseCIDR tok = some (fam, p) := by
  unfold netBits
  cases parseCIDR tok with
  | none => simp
  | some fp =>
    obtain ⟨fam, q⟩ := fp
    simp

/-- In an index `loadDump` has built, the lookup of a valid address finds an entry, and
finds flag 1 exactly when the bits of the address begin with a non-empty inserted
prefix. -/
theorem built_lookup (data : Text) (db : IPTree) (ip : Text) (fam : Family) (bits : List Bool)
    (hdb : buildIndex data = .ok db) (hip : parseAddr ip = some (fam, bits)) :
    (∃ v, GetByString db ip = (some v, true, none)) ∧
      (member db ip = true ↔ ∃ p, p ≠ [] ∧ p <+: bits ∧
        ∃ tok ∈ tokensOf ((rawLines data).map dropCR), netBits tok = some p) := by
  obtain ⟨_, rfl⟩ := (buildIndex_ok_iff data db).1 hdb
  obtain ⟨v, hv, hiff⟩ := built_find (tokensOf ((rawLines data).map dropCR)) bits
  have hg : GetByString ((tokensOf ((rawLines data).map dropCR)).foldl add1 seed) ip
      = (some v, true, none) := by
    simp [GetByString, hip, hv]
  refine ⟨⟨v, hg⟩, ?_⟩
  simp only [member, hg, Option.getD_some, Bool.true_and, decide_eq_true_eq]
  exact hiff

/-- For a dataset that lists no short IPv6 prefix, the handler maps an IPv4 address to
true exactly when it lies inside a listed IPv4 range of prefix length at least 1. -/
theorem member_iff_listedV4 (data : Text) (db : IPTree) (ip : Text) (a : Nat)
    (hdb : buildIndex data = .ok db) (hip : IsIPv4 ip a) (hv6 : noShortV6 data) :
    (GetByString db ip).2.2 = none ∧ (member db ip = true ↔ listedV4 data a) := by
  have hparse : parseAddr ip = some (.v4, toBits 32 a) :=
    (parseAddr_v4_iff ip _).2 ⟨a, hip, rfl⟩
  obtain ⟨⟨v, hg⟩, hm⟩ := built_lookup data db ip .v4 (toBits 32 a) hdb hparse
  have ha : a < 2 ^ 32 := (isIPv4_shape ip a hip).2.2
  refine ⟨by rw [hg], ?_⟩
  rw [hm]
  constructor
  · rintro ⟨p, hp, hpre, tok, htok, hnet⟩
    obtain ⟨fam, hcidr⟩ := (netBits_iff tok p).1 hnet
    have hlisted : ListedToken data tok := (listedToken_iff data tok).2 htok
    cases fam with
    | v4 =>
      obtain ⟨base, len, hr, rfl⟩ := (parseCIDR_v4_iff tok p).1 hcidr
      have hb : base < 2 ^ 32 ∧ len ≤ 32 := by
        rcases hr with ⟨h1, h2⟩ | ⟨addr, l, _, h1, _, h2⟩
        · exact ⟨(isIPv4_shape tok base h1).2.2, by omega⟩
        · exact ⟨(isIPv4_shape addr base h1).2.2, h2⟩
      refine ⟨tok, base, len, hlisted, hr, ?_, (prefix_iff_inRange a base len ha hb.1 hb.2).1 hpre⟩
      rcases Nat.eq_zero_or_pos len with h0 | h0
      · subst h0
        exact absurd (by simp) hp
      · exact h0
    | v6 =>
      have h32 := hv6 tok hlisted p hcidr
      have := hpre.length_le
      rw [toBits_length] at this
      omega
  · rintro ⟨core, base, len, hlisted, hr, hlen, hin⟩
    have hb : base < 2 ^ 32 ∧ len ≤ 32 := by
      rcases hr with ⟨h1, h2⟩ | ⟨addr, l, _, h1, _, h2⟩
      · exact ⟨(isIPv4_shape core base h1).2.2, by omega⟩
      · exact ⟨(isIPv4_shape addr base h1).2.2, h2⟩
    refine ⟨(toBits 32 base).take len, ?_, (prefix_iff_inRange a base len ha hb.1 hb.2).2 hin,
      core, (listedToken_iff data core).1 hlisted,
      (netBits_iff core _).2 ⟨.v4, (parseCIDR_v4_iff core _).2 ⟨base, len, hr, rfl⟩⟩⟩
    intro hnil
    have := congrArg List.length hnil
    rw [List.length_take, toBits_length] at this
    simp only [List.length_nil] at this
    omega

theorem noShortV6_of_tokens (data : Text)
    (h : ∀ core ∈ tokensOf ((rawLines data).map dropCR), shortV6 core = false) :
    noShortV6 data := by
  intro core hlisted p hp
  have := h core ((listedToken_iff data core).1 hlisted)
  simp only [shortV6, hp, decide_eq_false_iff_not] at this
  omega

theorem valid_of_parse (ips : List Text) (h : ∀ ip ∈ ips, (parseIPv4 ip).isSome = true) :
    ∀ ip ∈ ips, ∃ a, IsIPv4 ip a := by
  intro ip hip
  obtain ⟨a, ha⟩ := Option.isSome_iff_exists.1 (h ip hip)
  exact ⟨a, (parseIPv4_iff ip a).1 ha⟩

set_option maxRecDepth 100000 in
/-- C1 (as the code has it): for a readable dataset from which `loadDump` builds an
index and which lists no IPv6 range with a prefix of 32 bits or fewer, and for a
non-empty batch of syntactically valid IPv4 address texts, the handler hands the
encoder a mapping whose keys are the addresses of the batch, and an address is mapped
to true if and only if it lies inside an IPv4 address or range of prefix length at
least 1 that is listed, pipe-separated and trimmed of white space, in field 0 of a
line of the dataset with at least 2 fields, and to false otherwise; for the dataset
"1.2.3.0/24;note" the batch ["1.2.3.4", "8.8.8.8"] gives 1.2.3.4 true, 8.8.8.8 false,
and entries surrounded by white space, with a carriage return ending the line, are
listed all the same. -/
theorem check_ips_membership (fs : FS) (path : Text) (file : File) (db : IPTree)
    (ips : List Text) (encodeErr : Option GoError)
    (hfile : fs path = some file) (hload : loadDump fs path = .ok db)
    (hne : ips ≠ []) (hvalid : ∀ ip ∈ ips, ∃ a, IsIPv4 ip a)
    (hv6 : noShortV6 file.data) :
    (∃ res, checkIps db (.ok ips) encodeErr = (.encoded res encodeErr, ips) ∧
      (∀ ip ∈ ips, ∀ a, IsIPv4 ip a →
        (res.get ip = some true ↔ listedV4 file.data a) ∧
        (res.get ip = some false ↔ ¬ listedV4 file.data a)) ∧
      (∀ k, k ∉ ips → res.get k = none)) ∧
    (∃ db1, loadDump (fun _ => some ⟨ascii "1.2.3.0/24;note", none⟩) (ascii "dump.current")
        = .ok db1 ∧
      checkIps db1 (.ok [ascii "1.2.3.4", ascii "8.8.8.8"]) none
        = (.encoded [(ascii "1.2.3.4", true), (ascii "8.8.8.8", false)] none,
            [ascii "1.2.3.4", ascii "8.8.8.8"])) ∧
    (∃ db2, loadDump (fun _ => some
          ⟨ascii "x;y\r\n\t1.2.3.0/24 | 5.6.7.8" ++ [0xC2, 0xA0] ++ ascii "|9.9.9.9 9;note\r\n7.7.7.7\n",
            none⟩) (ascii "dump.current") = .ok db2 ∧
      checkIps db2 (.ok [ascii "1.2.3.4", ascii "5.6.7.8", ascii "9.9.9.9", ascii "7.7.7.7"]) none
        = (.encoded [(ascii "1.2.3.4", true), (ascii "5.6.7.8", true), (ascii "9.9.9.9", false),
              (ascii "7.7.7.7", false)] none,
            [ascii "1.2.3.4", ascii "5.6.7.8", ascii "9.9.9.9", ascii "7.7.7.7"])) := by
  rw [loadDump_eq fs path file hfile] at hload
  have hbuild := (scanFile_ok file db hload).2
  refine ⟨⟨_, checkIps_valid db ips encodeErr hne ?_, ?_, ?_⟩, ?_, ?_⟩
  · intro ip hip
    obtain ⟨a, ha⟩ := hvalid ip hip
    exact (member_iff_listedV4 file.data db ip a hbuild ha hv6).1
  · intro ip hip a ha
    have hm := (member_iff_listedV4 file.data db ip a hbuild ha hv6).2
    rw [get_foldl_set (member db) ip ips [], if_pos hip]
    constructor
    · rw [← hm]; simp
    · rw [← hm]; simp
  · intro k hk
    rw [get_foldl_set (member db) k ips [], if_neg hk]
    rfl
  · exact ⟨_, rfl, by decide⟩
  · exact ⟨_, rfl, by decide⟩

set_option maxRecDepth 100000 in
theorem check_ips_membership_witness :
    (∃ res, checkIps (add1 (add1 seed (ascii "1.2.3.0/24")) (ascii "5.6.7.8"))
        (.ok [ascii "1.2.3.4", ascii "8.8.8.8", ascii "5.6.7.8", ascii "1.2.3.4"]) none
        = (.encoded res none,
            [ascii "1.2.3.4", ascii "8.8.8.8", ascii "5.6.7.8", ascii "1.2.3.4"]) ∧
      (∀ ip ∈ [ascii "1.2.3.4", ascii "8.8.8.8", ascii "5.6.7.8", ascii "1.2.3.4"],
        ∀ a, IsIPv4 ip a →
        (res.get ip = some true ↔
          listedV4 (ascii " 1.2.3.0/24 |\t5.6.7.8 | 0.0.0.0/0 | bad ;note\r\n9.9.9.9\n") a) ∧
        (res.get ip = some false ↔
          ¬ listedV4 (ascii " 1.2.3.0/24 |\t5.6.7.8 | 0.0.0.0/0 | bad ;note\r\n9.9.9.9\n") a)) ∧
      (∀ k, k ∉ [ascii "1.2.3.4", ascii "8.8.8.8", ascii "5.6.7.8", ascii "1.2.3.4"] →
        res.get k = none)) ∧
    (∃ db1, loadDump (fun _ => some ⟨ascii "1.2.3.0/24;note", none⟩) (ascii "dump.current")
        = .ok db1 ∧
      checkIps db1 (.ok [ascii "1.2.3.4", ascii "8.8.8.8"]) none
        = (.encoded [(ascii "1.2.3.4", true), (ascii "8.8.8.8", false)] none,
            [ascii "1.2.3.4", ascii "8.8.8.8"])) ∧
    (∃ db2, loadDump (fun _ => some
          ⟨ascii "x;y\r\n\t1.2.3.0/24 | 5.6.7.8" ++ [0xC2, 0xA0] ++ ascii "|9.9.9.9 9;note\r\n7.7.7.7\n",
            none⟩) (ascii "dump.current") = .ok db2 ∧
      checkIps db2 (.ok [ascii "1.2.3.4", ascii "5.6.7.8", ascii "9.9.9.9", ascii "7.7.7.7"]) none
        = (.encoded [(ascii "1.2.3.4", true), (ascii "5.6.7.8", true), (ascii "9.9.9.9", false),
              (ascii "7.7.7.7", false)] none,
            [ascii "1.2.3.4", ascii "5.6.7.8", ascii "9.9.9.9", ascii "7.7.7.7"])) :=
  check_ips_membership
    (fun _ => some ⟨ascii " 1.2.3.0/24 |\t5.6.7.8 | 0.0.0.0/0 | bad ;note\r\n9.9.9.9\n", none⟩)
    (ascii "dump.current")
    ⟨ascii " 1.2.3.0/24 |\t5.6.7.8 | 0.0.0.0/0 | bad ;note\r\n9.9.9.9\n", none⟩
    (add1 (add1 seed (ascii "1.2.3.0/24")) (ascii "5.6.7.8"))
    [ascii "1.2.3.4", ascii "8.8.8.8", ascii "5.6.7.8", ascii "1.2.3.4"] none rfl rfl (by decide)
    (valid_of_parse _ (by decide)) (noShortV6_of_tokens _ (by decide))

set_option maxRecDepth 100000 in
/-- C1 fails as stated, in both directions.  The dataset "0.0.0.0/0;x" lists the range
0.0.0.0/0, which contains 8.8.8.8, yet the handler maps 8.8.8.8 to false: the entry
of prefix length 0 is the default entry, which keeps flag 0.  The dataset
"102:300::/24;x" lists no IPv4 address or range at all, yet the handler maps 1.2.3.4
to true: the IPv6 range has the 24 leading bits of 1.2.3.4 as its prefix, and the
trie holds the prefixes of both families under one root. -/
theorem check_ips_membership_counterexample :
    (ListedToken (ascii "0.0.0.0/0;x") (ascii "0.0.0.0/0") ∧
      IsIPv4Range (ascii "0.0.0.0/0") 0 0 ∧ IsIPv4 (ascii "8.8.8.8") 134744072 ∧
      InRange 134744072 0 0 ∧
      loadDump (fun _ => some ⟨ascii "0.0.0.0/0;x", none⟩) (ascii "dump.current") = .ok seed ∧
      checkIps seed (.ok [ascii "8.8.8.8"]) none
        = (.encoded [(ascii "8.8.8.8", false)] none, [ascii "8.8.8.8"])) ∧
    ((∀ core, ListedToken (ascii "102:300::/24;x") core →
        ∀ base len, ¬ IsIPv4Range core base len) ∧
      loadDump (fun _ => some ⟨ascii "102:300::/24;x", none⟩) (ascii "dump.current")
        = .ok (add1 seed (ascii "102:300::/24")) ∧
      checkIps (add1 seed (ascii "102:300::/24")) (.ok [ascii "1.2.3.4"]) none
        = (.encoded [(ascii "1.2.3.4", true)] none, [ascii "1.2.3.4"])) := by
  refine ⟨⟨?_, ?_, ?_, ?_, rfl, by decide⟩, ?_, rfl, by decide⟩
  · exact (listedToken_iff _ _).2 (by decide)
  · exact Or.inr ⟨ascii "0.0.0.0", ascii "0", (sepBy_iff 47 _ _).2 (by decide),
      (parseIPv4_iff _ _).1 (by decide), ((field_decimal 128 _ _).1 (by decide)).1, by decide⟩
  · exact (parseIPv4_iff _ _).1 (by decide)
  · simp [InRange]
  · intro core hcore base len hr
    have hmem := (listedToken_iff _ _).1 hcore
    have htoks : tokensOf ((rawLines (ascii "102:300::/24;x")).map dropCR)
        = [ascii "102:300::/24"] := by decide
    rw [htoks, List.mem_singleton] at hmem
    subst hmem
    have h4 := (parseCIDR_v4_iff _ _).2 ⟨base, len, hr, rfl⟩
    have h6 : (parseCIDR (ascii "102:300::/24")).map Prod.fst = some .v6 := by decide
    rw [h4] at h6
    simp at h6

theorem GetByString_error (db : IPTree) (ip : Text) :
    ((GetByString db ip).2.2 = none ↔ parseAddr ip ≠ none) ∧
    (parseAddr ip = none → GetByString db ip = (none, false, some .badAddress)) := by
  unfold GetByString
  rcases h : parseAddr ip with _ | ⟨fam, bits⟩
  · simp
  · cases hv : db.root.find bits none <;> simp [hv]

theorem checkLoop_append (db : IPTree) :
    ∀ (good rest : List Text) (res : ResMap) (looked : List Text),
      (∀ ip ∈ good, (GetByString db ip).2.2 = none) →
      checkLoop db (good ++ rest) res looked
        = checkLoop db rest (good.foldl (fun r ip => r.set ip (member db ip)) res)
            (looked ++ good) := by
  intro good
  induction good with
  | nil => intro rest res looked _; simp
  | cons ip good ih =>
    intro rest res looked h
    have h2 : ∀ ip ∈ good, (GetByString db ip).2.2 = none := fun x hx => h x (by simp [hx])
    simp [checkLoop, checkOne_ok db ip res (h ip (by simp)), ih _ _ _ h2]

/-- The texts of a batch before its first malformed address. -/
theorem first_malformed (ips : List Text) (h : ∃ ip ∈ ips, parseAddr ip = none) :
    ∃ good bad rest, ips = good ++ bad :: rest ∧
      (∀ g ∈ good, parseAddr g ≠ none) ∧ parseAddr bad = none := by
  induction ips with
  | nil => simp at h
  | cons a l ih =>
    by_cases ha : parseAddr a = none
    · exact ⟨[], a, l, rfl, by simp, ha⟩
    · have h2 : ∃ ip ∈ l, parseAddr ip = none := by
        obtain ⟨x, hx, hn⟩ := h
        rcases List.mem_cons.1 hx with rfl | hx
        · exact absurd hn ha
        · exact ⟨x, hx, hn⟩
      obtain ⟨good, bad, rest, he, hg, hb⟩ := ih h2
      refine ⟨a :: good, bad, rest, by simp [he], ?_, hb⟩
      intro g hg'
      rcases List.mem_cons.1 hg' with rfl | hg'
      · exact ha
      · exact hg g hg'

/-- C2 (as the code has it): a batch that holds a text that is not a syntactically
valid address makes the whole request fail: the handler looks up the addresses up
to the first malformed one, answers HTTP 500 with the error of that lookup and
hands no mapping to the encoder. -/
theorem check_ips_malformed_fails (db : IPTree) (ips : List Text) (encodeErr : Option GoError)
    (h : ∃ ip ∈ ips, parseAddr ip = none) :
    ∃ good bad rest, ips = good ++ bad :: rest ∧
      (∀ g ∈ good, parseAddr g ≠ none) ∧ parseAddr bad = none ∧
      checkIps db (.ok ips) encodeErr = (.lookupError .badAddress, good ++ [bad]) ∧
      (checkIps db (.ok ips) encodeErr).1.status = 500 ∧
      ∀ res, (checkIps db (.ok ips) encodeErr).1 ≠ .encoded res encodeErr := by
  obtain ⟨good, bad, rest, he, hg, hb⟩ := first_malformed ips h
  have hgood : ∀ ip ∈ good, (GetByString db ip).2.2 = none :=
    fun ip hip => ((GetByString_error db ip).1).2 (hg ip hip)
  have hlen : ¬ ips.length < 1 := by rw [he]; simp
  have hres : checkIps db (.ok ips) encodeErr = (.lookupError .badAddress, good ++ [bad]) := by
    simp only [checkIps, hlen, if_false]
    rw [he, checkLoop_append db good (bad :: rest) [] [] hgood]
    have hbad : (GetByString db bad).2.2 = some .badAddress := by
      rw [(GetByString_error db bad).2 hb]
    simp [checkLoop, checkOne_error db bad _ _ hbad]
  refine ⟨good, bad, rest, he, hg, hb, hres, ?_, ?_⟩
  · rw [hres]; rfl
  · intro res; rw [hres]; simp

theorem check_ips_malformed_fails_witness :
    ∃ good bad rest, [ascii "1.2.3.4", ascii "1.2.3", ascii "8.8.8.8"] = good ++ bad :: rest ∧
      (∀ g ∈ good, parseAddr g ≠ none) ∧ parseAddr bad = none ∧
      checkIps (add1 seed (ascii "1.2.3.0/24"))
          (.ok [ascii "1.2.3.4", ascii "1.2.3", ascii "8.8.8.8"]) none
        = (.lookupError .badAddress, good ++ [bad]) ∧
      (checkIps (add1 seed (ascii "1.2.3.0/24"))
          (.ok [ascii "1.2.3.4", ascii "1.2.3", ascii "8.8.8.8"]) none).1.status = 500 ∧
      ∀ res, (checkIps (add1 seed (ascii "1.2.3.0/24"))
          (.ok [ascii "1.2.3.4", ascii "1.2.3", ascii "8.8.8.8"]) none).1 ≠ .encoded res none :=
  check_ips_malformed_fails (add1 seed (ascii "1.2.3.0/24"))
    [ascii "1.2.3.4", ascii "1.2.3", ascii "8.8.8.8"] none
    ⟨(ascii "1.2.3"), by decide, by decide⟩

/-- C2 fails as stated: on the index built from "1.2.3.0/24;note", the batch
["1.2.3.4", "not-an-ip"] is not answered with a mapping that sends "not-an-ip" to false:
the request ends with HTTP 500 at the lookup of the malformed text. -/
theorem check_ips_malformed_counterexample :
    parseAddr (ascii "not-an-ip") = none ∧
    buildIndex (ascii "1.2.3.0/24;note") = .ok (add1 seed (ascii "1.2.3.0/24")) ∧
    checkIps (add1 seed (ascii "1.2.3.0/24"))
        (.ok [ascii "1.2.3.4", ascii "not-an-ip"]) none
      = (.lookupError .badAddress, [ascii "1.2.3.4", ascii "not-an-ip"]) ∧
    (checkIps (add1 seed (ascii "1.2.3.0/24"))
        (.ok [ascii "1.2.3.4", ascii "not-an-ip"]) none).1.status = 500 :=
  ⟨by decide, rfl, by decide, by decide⟩

/-- C3: the handler ends with HTTP 400 exactly when the request body does not decode
or decodes to a list with zero elements; for the empty list it performs no lookup on
the index and hands no mapping to the encoder. -/
theorem check_ips_bad_request (db : IPTree) (body : Except GoError (List Text))
    (encodeErr : Option GoError) :
    ((checkIps db body encodeErr).1.status = 400 ↔
      ((∃ e, body = .error e) ∨ body = .ok [])) ∧
    checkIps db (.ok []) encodeErr = (.emptyList, []) ∧
    (checkIps db (.ok []) encodeErr).2 = [] ∧
    (∀ res err, (checkIps db (.ok []) encodeErr).1 ≠ .encoded res err) := by
  refine ⟨?_, rfl, rfl, ?_⟩
  · cases body with
    | error e => simp [checkIps, Outcome.status]
    | ok ips =>
      cases ips with
      | nil => simp [checkIps, Outcome.status]
      | cons ip ips =>
        have hlen : ¬ (ip :: ips).length < 1 := by simp
        simp only [checkIps, hlen, if_false]
        rcases hc : checkLoop db (ip :: ips) [] [] with ⟨r, looked⟩
        cases r with
        | error e => simp [Outcome.status]
        | ok res => cases encodeErr <;> simp [Outcome.status]
  · intro res err
    simp [checkIps]

theorem add1_malformed (t : IPTree) (tok : Text) (h : parseCIDR tok = none) : add1 t tok = t := by
  simp [add1, AddByString, h]

theorem foldl_add1_wellFormed (toks : List Text) :
    ∀ t : IPTree,
      toks.foldl add1 t = (toks.filter (fun tok => (parseCIDR tok).isSome)).foldl add1 t := by
  induction toks with
  | nil => intro t; rfl
  | cons tok toks ih =>
    intro t
    cases h : parseCIDR tok with
    | none => simp [List.filter, h, add1_malformed t tok h, ih]
    | some n => simp [List.filter, h, ih]

theorem rawLines_replicate (c : Nat) (hc : c ≠ 10) :
    ∀ n : Nat, rawLines (List.replicate (n + 1) c) = [List.replicate (n + 1) c] := by
  intro n
  induction n with
  | zero => simp [rawLines, hc]
  | succ n ih =>
    rw [List.replicate_succ, rawLines, if_neg hc, ih]

theorem rawLines_longLine : rawLines longLine = [longLine] :=
  rawLines_replicate 97 (by decide) 99999

theorem scanFile_longLine (readErr : Option GoError) :
    scanFile ⟨longLine, readErr⟩ = .error .tooLong := by
  apply scanFile_tooLong
  refine ⟨longLine, ?_, ?_⟩
  · show longLine ∈ rawLines longLine
    rw [rawLines_longLine]
    exact List.mem_singleton.2 rfl
  · unfold longLine
    rw [List.length_replicate]
    decide

/-- C4 (as the code has it): `loadDump` returns an error only when the file cannot be
opened, when reading it fails, or when one of its lines is 65536 bytes long or longer
(`bufio.ErrTooLong`); for every file that can be opened and read and whose lines are
all shorter, whatever its bytes, `loadDump` returns an index and no error, and that
index is the one obtained from the well-formed tokens alone: a malformed token is
skipped and changes nothing. -/
theorem loadDump_errors_only (fs : FS) (path : Text) :
    (∀ e, loadDump fs path = .error e →
      (fs path = none ∧ e = .notExist) ∨
      (∃ file, fs path = some file ∧
        (((∃ l ∈ rawLines file.data, maxScanTokenSize ≤ l.length) ∧ e = .tooLong) ∨
          file.readErr = some e))) ∧
    (∀ file, fs path = some file → file.readErr = none →
      (∀ l ∈ rawLines file.data, l.length < maxScanTokenSize) →
      loadDump fs path
        = .ok (((tokensOf ((rawLines file.data).map dropCR)).filter
            (fun tok => (parseCIDR tok).isSome)).foldl add1 seed)) := by
  constructor
  · intro e he
    cases hf : fs path with
    | none =>
      left
      simp [loadDump, osOpen, hf] at he
      exact ⟨rfl, he.symm⟩
    | some file =>
      right
      rw [loadDump_eq fs path file hf] at he
      refine ⟨file, rfl, ?_⟩
      by_cases h : ∀ l ∈ rawLines file.data, l.length < maxScanTokenSize
      · right
        rw [scanFile_fits file h] at he
        cases hr : file.readErr with
        | none => rw [hr] at he; cases he
        | some e' =>
          rw [hr] at he
          rw [Except.error.inj he]
      · left
        have h2 : ∃ l ∈ rawLines file.data, maxScanTokenSize ≤ l.length := by
          push_neg at h; exact h
        rw [scanFile_tooLong file h2] at he
        exact ⟨h2, (Except.error.inj he).symm⟩
  · intro file hf hr h
    rw [loadDump_eq fs path file hf, scanFile_fits file h, hr, foldl_add1_wellFormed]

set_option maxRecDepth 100000 in
theorem loadDump_errors_only_witness :
    loadDump (fun _ => some
        ⟨ascii "1.2.3.0/24 | 300.1.1.1 | 5.6.7.8;a\nx;y\n\n" ++ [0xFF, 0xFE, 0, 59, 0x80, 10] ++
          ascii "9.9.9.9", none⟩) (ascii "dump.current")
      = .ok ((((tokensOf ((rawLines
            (ascii "1.2.3.0/24 | 300.1.1.1 | 5.6.7.8;a\nx;y\n\n" ++ [0xFF, 0xFE, 0, 59, 0x80, 10] ++
              ascii "9.9.9.9")).map dropCR)).filter
            (fun tok => (parseCIDR tok).isSome)).foldl add1 seed)) :=
  (loadDump_errors_only
      (fun _ => some
        ⟨ascii "1.2.3.0/24 | 300.1.1.1 | 5.6.7.8;a\nx;y\n\n" ++ [0xFF, 0xFE, 0, 59, 0x80, 10] ++
          ascii "9.9.9.9", none⟩) (ascii "dump.current")).2
    ⟨ascii "1.2.3.0/24 | 300.1.1.1 | 5.6.7.8;a\nx;y\n\n" ++ [0xFF, 0xFE, 0, 59, 0x80, 10] ++
      ascii "9.9.9.9", none⟩ rfl rfl (by decide)

/-- C4 fails as stated: a file that can be opened and read without error and consists
of one line of 100000 letters makes `loadDump` return `bufio.ErrTooLong` and no
index. -/
theorem loadDump_long_line_counterexample :
    (⟨longLine, none⟩ : File).data = List.replicate 100000 97 ∧
    (⟨longLine, none⟩ : File).readErr = none ∧
    loadDump (fun _ => some ⟨longLine, none⟩) (ascii "dump.current") = .error .tooLong := by
  refine ⟨rfl, rfl, ?_⟩
  rw [loadDump_eq (fun _ => some ⟨longLine, none⟩) (ascii "dump.current") ⟨longLine, none⟩ rfl]
  exact scanFile_longLine none

/-- C5: in every index `loadDump` returns, for any dataset, the lookup of every
syntactically valid address, IPv4 or IPv6, finds an entry and reports no error, so
that the handler never takes its not-found branch; the index always holds the default
entry of prefix length 0, with flag 0, at the root of the trie that keys the addresses
of both families. -/
theorem lookup_always_found (fs : FS) (path : Text) (db : IPTree) (ip : Text) (fam : Family)
    (bits : List Bool)
    (hload : loadDump fs path = .ok db) (hip : parseAddr ip = some (fam, bits)) :
    (∃ v, GetByString db ip = (some v, true, none)) ∧ db.root.valAt [] = some 0 := by
  obtain ⟨file, _, _, hb⟩ := loadDump_ok fs path db hload
  refine ⟨(built_lookup file.data db ip fam bits hb hip).1, ?_⟩
  obtain ⟨_, rfl⟩ := (buildIndex_ok_iff file.data db).1 hb
  rw [built_valAt]
  rfl

theorem lookup_always_found_witness :
    (∃ v, GetByString (add1 seed (ascii "1.2.3.0/24")) (ascii "2001:db8::1")
        = (some v, true, none)) ∧
      (add1 seed (ascii "1.2.3.0/24")).root.valAt [] = some 0 :=
  lookup_always_found (fun _ => some ⟨ascii "1.2.3.0/24;note", none⟩) (ascii "dump.current")
    (add1 seed (ascii "1.2.3.0/24")) (ascii "2001:db8::1") .v6 _ rfl rfl

theorem fresh_ne_current (dumpDir : Text) : freshDump dumpDir ≠ currentDump dumpDir := by
  unfold freshDump currentDump pathJoin
  by_cases h : dumpDir = []
  · simp only [h, if_true]; decide
  · simp only [h, if_false]
    intro e
    have := List.append_cancel_left e
    revert this
    decide

theorem FS.set_other (fs : FS) (path : Text) (c : Option File) (p : Text) (h : p ≠ path) :
    (fs.set path c) p = fs p := by
  simp [FS.set, h]

theorem FS.set_same (fs : FS) (path : Text) (c : Option File) : (fs.set path c) path = c := by
  simp [FS.set]

/-- A call of `downloadDump` changes no file but the one it downloads to. -/
theorem downloadDump_frame (env : DownloadEnv) (fs : FS) (path p : Text) (h : p ≠ path) :
    (downloadDump env fs path).1 p = fs p := by
  unfold downloadDump
  cases env.get with
  | error e => rfl
  | ok resp =>
    dsimp only
    cases hr : (if (fs path).isSome = true then env.remove else none) with
    | some e => rfl
    | none =>
      dsimp only
      have h1 : (if (fs path).isSome = true then fs.set path none else fs) p = fs p := by
        by_cases hs : (fs path).isSome = true
        · simp [hs, FS.set_other _ _ _ _ h]
        · simp [hs]
      cases env.openFile with
      | some e => exact h1
      | none =>
        dsimp only
        by_cases hc : resp.statusCode = 200
        · simp only [hc, ne_eq, not_true_eq_false, if_false]
          cases env.copy with
          | some en => simp [FS.set_other _ _ _ _ h, h1]
          | none => simp [FS.set_other _ _ _ _ h, h1]
        · simp [hc, FS.set_other _ _ _ _ h, h1]

/-- A refresh cycle whose download or load fails keeps `db` and leaves the files as
the download left them. -/
theorem refreshCycle_failed (dumpDir : Text) (env : CycleEnv) (s : State)
    (hfail : (downloadDump env.download s.fs (freshDump dumpDir)).2 ≠ none ∨
      ∃ e, loadDump (downloadDump env.download s.fs (freshDump dumpDir)).1 (freshDump dumpDir)
        = .error e) :
    (refreshCycle dumpDir env s).db = s.db ∧
    (refreshCycle dumpDir env s).fs = (downloadDump env.download s.fs (freshDump dumpDir)).1 := by
  unfold refreshCycle
  rcases hd : downloadDump env.download s.fs (freshDump dumpDir) with ⟨fs1, err⟩
  rw [hd] at hfail
  cases err with
  | some e => exact ⟨rfl, rfl⟩
  | none =>
    rcases hfail with h | ⟨e, he⟩
    · exact absurd rfl h
    · dsimp only at he ⊢
      rw [he]
      exact ⟨rfl, rfl⟩

/-- C6: a refresh cycle in which the download or the load of the staging file fails
leaves the published index as it was and changes no file but the staging file
`dump.fresh`; in particular `dump.current` keeps its content. -/
theorem refresh_failure_frame (dumpDir : Text) (env : CycleEnv) (s : State)
    (hfail : (downloadDump env.download s.fs (freshDump dumpDir)).2 ≠ none ∨
      ∃ e, loadDump (downloadDump env.download s.fs (freshDump dumpDir)).1 (freshDump dumpDir)
        = .error e) :
    (refreshCycle dumpDir env s).db = s.db ∧
    (refreshCycle dumpDir env s).fs (currentDump dumpDir) = s.fs (currentDump dumpDir) ∧
    ∀ p, p ≠ freshDump dumpDir → (refreshCycle dumpDir env s).fs p = s.fs p := by
  have key := refreshCycle_failed dumpDir env s hfail
  refine ⟨key.1, ?_, ?_⟩
  · rw [key.2]
    exact downloadDump_frame _ _ _ _ (fresh_ne_current dumpDir).symm
  · intro p hp
    rw [key.2]
    exact downloadDump_frame _ _ _ _ hp

theorem refresh_failure_frame_witness :
    (refreshCycle (ascii "d") ⟨notFoundDownload, none⟩
        ⟨seed, fsWithCurrent (ascii "1.2.3.0/24;note")⟩).db = seed ∧
    (refreshCycle (ascii "d") ⟨notFoundDownload, none⟩
        ⟨seed, fsWithCurrent (ascii "1.2.3.0/24;note")⟩).fs (currentDump (ascii "d"))
      = fsWithCurrent (ascii "1.2.3.0/24;note") (currentDump (ascii "d")) ∧
    ∀ p, p ≠ freshDump (ascii "d") →
      (refreshCycle (ascii "d") ⟨notFoundDownload, none⟩
        ⟨seed, fsWithCurrent (ascii "1.2.3.0/24;note")⟩).fs p
      = fsWithCurrent (ascii "1.2.3.0/24;note") p :=
  refresh_failure_frame (ascii "d") ⟨notFoundDownload, none⟩
    ⟨seed, fsWithCurrent (ascii "1.2.3.0/24;note")⟩ (Or.inl (by decide))

theorem overwrite_nil (new : Text) : overwrite [] new = new := by
  simp [overwrite]

/-- A call of `downloadDump` that returns no error has received status 200 and has
left the whole body in the file. -/
theorem downloadDump_ok (env : DownloadEnv) (fs fs1 : FS) (path : Text)
    (h : downloadDump env fs path = (fs1, none)) :
    ∃ resp, env.get = .ok resp ∧ resp.statusCode = 200 ∧ fs1 path = some ⟨resp.body, none⟩ := by
  unfold downloadDump at h
  cases hg : env.get with
  | error e => rw [hg] at h; simp at h
  | ok resp =>
    rw [hg] at h
    dsimp only at h
    cases hr : (if (fs path).isSome = true then env.remove else none) with
    | some e => rw [hr] at h; simp at h
    | none =>
      rw [hr] at h
      dsimp only at h
      have h0 : (if (fs path).isSome = true then fs.set path none else fs) path = none := by
        by_cases hs : (fs path).isSome = true
        · simp [hs, FS.set_same]
        · simp only [hs, if_false]
          simpa using hs
      cases ho : env.openFile with
      | some e => rw [ho] at h; simp at h
      | none =>
        rw [ho] at h
        dsimp only at h
        by_cases hc : resp.statusCode = 200
        · simp only [hc, ne_eq, not_true_eq_false, if_false] at h
          cases hcp : env.copy with
          | some en => rw [hcp] at h; simp at h
          | none =>
            rw [hcp] at h
            simp only [Prod.mk.injEq, and_true] at h
            refine ⟨resp, rfl, hc, ?_⟩
            have hc0 : contentAt (if (fs path).isSome = true then fs.set path none else fs) path
                = [] := by
              simp only [contentAt, h0]
            rw [← h, FS.set_same, hc0, overwrite_nil]
        · simp [hc] at h

/-- A download that meets no failure leaves the body in the file and changes nothing
else. -/
theorem downloadDump_good (body : Text) (fs : FS) (path : Text) :
    downloadDump (goodDownload body) fs path = (fs.set path (some ⟨body, none⟩), none) := by
  have h1 : (if (fs path).isSome = true then fs.set path none else fs) path = none := by
    by_cases hs : (fs path).isSome = true
    · simp [hs, FS.set_same]
    · simp only [hs, if_false]
      simpa using hs
  have hc0 : contentAt (if (fs path).isSome = true then fs.set path none else fs) path
      = [] := by
    simp only [contentAt, h1]
  unfold downloadDump goodDownload
  simp only [ne_eq, not_true_eq_false, if_false, ite_self, hc0, overwrite_nil,
    Prod.mk.injEq, and_true]
  funext p
  by_cases hp : p = path
  · simp [FS.set, hp]
  · by_cases hs : (fs path).isSome = true <;> simp [FS.set, hp, hs]

theorem bootstrapStep_of_serving (dumpDir : Text) (boots : List DownloadEnv) (s : State) :
    boots.foldl (fun p env => bootstrapStep dumpDir env p) (.serving s) = .serving s := by
  induction boots with
  | nil => rfl
  | cons env boots ih => simpa [bootstrapStep] using ih

/-- The bootstrap loop ends bootstrapping or serving when every body it downloads
loads. -/
theorem bootstrap_alive (dumpDir : Text) (boots : List DownloadEnv)
    (hload : ∀ env ∈ boots, ∀ resp, env.get = .ok resp → ∃ db, buildIndex resp.body = .ok db) :
    ∀ (fs : FS) (slept : Nat),
      (∃ fs1 n, boots.foldl (fun p env => bootstrapStep dumpDir env p) (.bootstrapping fs slept)
        = .bootstrapping fs1 n) ∨
      (∃ s, boots.foldl (fun p env => bootstrapStep dumpDir env p) (.bootstrapping fs slept)
        = .serving s) := by
  induction boots with
  | nil => intro fs slept; left; exact ⟨fs, slept, rfl⟩
  | cons env boots ih =>
    intro fs slept
    have ih1 := ih (fun e he => hload e (by simp [he]))
    rw [List.foldl_cons]
    rcases hd : downloadDump env fs (currentDump dumpDir) with ⟨fs1, err⟩
    cases err with
    | some e =>
      simp only [bootstrapStep, hd]
      exact ih1 _ _
    | none =>
      obtain ⟨resp, hg, _, hbody⟩ := downloadDump_ok _ _ _ _ hd
      obtain ⟨db, hdb⟩ := hload env (by simp) resp hg
      have hl : loadDump fs1 (currentDump dumpDir) = .ok db := by
        rw [loadDump_eq fs1 _ _ hbody]; exact hdb
      simp only [bootstrapStep, hd, hl]
      right
      exact ⟨_, bootstrapStep_of_serving dumpDir boots _⟩

theorem refresh_alive (dumpDir : Text) (ticks : List CycleEnv) :
    ∀ p : Proc, (∀ code, p ≠ .exited code) →
      ∀ code, ticks.foldl (fun p env => refreshStep dumpDir env p) p ≠ .exited code := by
  induction ticks with
  | nil => intro p hp code; exact hp code
  | cons env ticks ih =>
    intro p hp code
    rw [List.foldl_cons]
    apply ih
    intro c
    cases p with
    | bootstrapping fs slept => simp [refreshStep]
    | exited c' => exact absurd rfl (hp c')
    | serving s => simp [refreshStep]

theorem bootstrapStep_load_error (dumpDir : Text) (env : DownloadEnv) (fs fs1 : FS)
    (slept : Nat) (e : GoError) (hd : downloadDump env fs (currentDump dumpDir) = (fs1, none))
    (hl : loadDump fs1 (currentDump dumpDir) = .error e) :
    bootstrapStep dumpDir env (.bootstrapping fs slept) = .exited 1 := by
  simp [bootstrapStep, hd, hl]

theorem run_single (dumpDir : Text) (env : DownloadEnv) (fs : FS) :
    run dumpDir [env] [] fs = bootstrapStep dumpDir env (.bootstrapping fs 0) := rfl

/-- C7 (as the code has it): a failed download during bootstrap leaves the process in
the bootstrap loop, not serving, with one more sleep of the retry interval before the
next attempt; a refresh cycle, whatever the outcome of its download and load, leaves
a serving process serving; a failed load after a successful bootstrap download ends
the process with exit code 1 (`log.Fatalln`); so the process is never terminated
provided every body downloaded during bootstrap loads. -/
theorem process_outcomes (dumpDir : Text) :
    (∀ env fs slept, (downloadDump env fs (currentDump dumpDir)).2 ≠ none →
      bootstrapStep dumpDir env (.bootstrapping fs slept)
        = .bootstrapping (downloadDump env fs (currentDump dumpDir)).1
            (slept + downloadRetryInterval)) ∧
    (∀ env s, refreshStep dumpDir env (.serving s) = .serving (refreshCycle dumpDir env s)) ∧
    (∀ env fs slept fs1 e, downloadDump env fs (currentDump dumpDir) = (fs1, none) →
      loadDump fs1 (currentDump dumpDir) = .error e →
      bootstrapStep dumpDir env (.bootstrapping fs slept) = .exited 1) ∧
    (∀ boots ticks fs,
      (∀ env ∈ boots, ∀ resp, env.get = .ok resp → ∃ db, buildIndex resp.body = .ok db) →
      ∀ code, run dumpDir boots ticks fs ≠ .exited code) := by
  refine ⟨?_, ?_, ?_, ?_⟩
  · intro env fs slept h
    rcases hd : downloadDump env fs (currentDump dumpDir) with ⟨fs1, err⟩
    rw [hd] at h
    cases err with
    | none => exact absurd rfl h
    | some e => simp [bootstrapStep, hd]
  · intro env s; rfl
  · intro env fs slept fs1 e hd hl
    exact bootstrapStep_load_error dumpDir env fs fs1 slept e hd hl
  · intro boots ticks fs hload code
    unfold run
    apply refresh_alive
    intro c
    rcases bootstrap_alive dumpDir boots hload fs 0 with ⟨fs1, n, h⟩ | ⟨s, h⟩ <;> rw [h] <;> simp

theorem process_outcomes_witness :
    ∀ code, run (ascii "d") [timeoutDownload, notFoundDownload, goodDownload (ascii "1.2.3.0/24;note")]
      [⟨notFoundDownload, none⟩, ⟨goodDownload (ascii "5.6.7.8;x"), none⟩] (fun _ => none)
      ≠ .exited code :=
  (process_outcomes (ascii "d")).2.2.2
    [timeoutDownload, notFoundDownload, goodDownload (ascii "1.2.3.0/24;note")]
    [⟨notFoundDownload, none⟩, ⟨goodDownload (ascii "5.6.7.8;x"), none⟩] (fun _ => none)
    (by
      intro env henv resp hresp
      simp only [List.mem_cons, List.mem_singleton, List.not_mem_nil, or_false] at henv
      rcases henv with rfl | rfl | rfl
      · simp [timeoutDownload] at hresp
      · simp only [notFoundDownload, Except.ok.injEq] at hresp
        subst hresp
        exact ⟨_, rfl⟩
      · simp only [goodDownload, Except.ok.injEq] at hresp
        subst hresp
        exact ⟨_, rfl⟩)

/-- C7 fails as stated: when the first download of the bootstrap succeeds with a body
that `loadDump` rejects (one line of 100000 letters), the process ends with exit
code 1 instead of staying up to retry. -/
theorem bootstrap_load_counterexample :
    run (ascii "d") [goodDownload longLine] [] (fun _ => none) = .exited 1 := by
  have hl : loadDump (FS.set (fun _ => none) (currentDump (ascii "d")) (some ⟨longLine, none⟩))
      (currentDump (ascii "d")) = .error .tooLong := by
    rw [loadDump_eq _ _ ⟨longLine, none⟩ (FS.set_same _ _ _)]
    exact scanFile_longLine none
  rw [run_single]
  exact bootstrapStep_load_error _ _ _ _ 0 _ (downloadDump_good _ _ _) hl

theorem rawLines_no_newline : ∀ (data : Text), ∀ l ∈ rawLines data, 10 ∉ l := by
  intro data
  induction data with
  | nil => intro l hl; simp [rawLines] at hl
  | cons c cs ih =>
    intro l hl
    unfold rawLines at hl
    by_cases hc : c = 10
    · simp only [hc, if_true, List.mem_cons] at hl
      rcases hl with rfl | hl
      · simp
      · exact ih l hl
    · simp only [hc, if_false] at hl
      cases hr : rawLines cs with
      | nil =>
        rw [hr] at hl
        simp only [List.mem_singleton] at hl
        subst hl
        simpa using fun h => hc h.symm
      | cons l0 ls =>
        rw [hr] at hl ih
        simp only [List.mem_cons] at hl
        rcases hl with rfl | hl
        · have := ih l0 (by simp)
          simp only [List.mem_cons, not_or]
          exact ⟨fun h => hc h.symm, this⟩
        · exact ih l (by simp [hl])

theorem rawLines_line_append (l : Text) (hl : 10 ∉ l) (rest : Text) :
    rawLines (l ++ 10 :: rest) = l :: rawLines rest := by
  induction l with
  | nil => simp [rawLines]
  | cons c cs ih =>
    have hc : c ≠ 10 := fun h => hl (by simp [h])
    have hcs : 10 ∉ cs := fun h => hl (by simp [h])
    rw [List.cons_append, rawLines, if_neg hc, ih hcs]

theorem rawLines_unlines (ls : List Text) (h : ∀ l ∈ ls, 10 ∉ l) :
    rawLines (unlines ls) = ls := by
  induction ls with
  | nil => rfl
  | cons l ls ih =>
    have h1 : unlines (l :: ls) = l ++ 10 :: unlines ls := by
      simp [unlines]
    rw [h1, rawLines_line_append l (h l (by simp)), ih (fun x hx => h x (by simp [hx]))]

theorem addLine_short (t : IPTree) (line : Text) (h : (split 59 line).length < 2) :
    addLine t line = t := by
  simp [addLine, h]

theorem scanLoop_filter (ls : List Text)
    (h : ∀ l ∈ ls, (split 59 (dropCR l)).length < 2 → l.length < maxScanTokenSize) :
    ∀ (readErr : Option GoError) (t : IPTree),
      scanLoop (ls.filter (fun l => decide (2 ≤ (split 59 (dropCR l)).length))) readErr t
        = scanLoop ls readErr t := by
  induction ls with
  | nil => intro readErr t; rfl
  | cons l ls ih =>
    intro readErr t
    have ih1 := ih (fun x hx => h x (by simp [hx]))
    by_cases hp : 2 ≤ (split 59 (dropCR l)).length
    · simp only [List.filter, hp, decide_True, scanLoop]
      by_cases hlen : maxScanTokenSize ≤ l.length
      · simp [hlen]
      · simp only [hlen, if_false]; exact ih1 _ _
    · have hshort : (split 59 (dropCR l)).length < 2 := Nat.not_le.1 hp
      have hfit : ¬ maxScanTokenSize ≤ l.length := Nat.not_le.2 (h l (by simp) hshort)
      simp only [List.filter, hp, decide_False, scanLoop, hfit, if_false,
        addLine_short t _ hshort]
      exact ih1 readErr t

theorem scanFile_removeShortLines (data : Text) (readErr : Option GoError)
    (h : ∀ l ∈ rawLines data, (split 59 (dropCR l)).length < 2 → l.length < maxScanTokenSize) :
    scanFile ⟨removeShortLines data, readErr⟩ = scanFile ⟨data, readErr⟩ := by
  unfold scanFile removeShortLines
  show (match scanLoop (rawLines (unlines _)) readErr _ with
    | (_, some e) => Except.error e
    | (t, none) => Except.ok t) = _
  rw [rawLines_unlines _ (fun l hl => rawLines_no_newline data l (List.mem_filter.1 hl).1),
    scanLoop_filter _ h]

/-- C8 (as the code has it): a line with fewer than 2 semicolon-delimited fields
inserts nothing, and for every dataset in which each such line is shorter than the
scanner limit of 65536 bytes, `loadDump` returns the same result as for the dataset
with those lines removed. -/
theorem loadDump_short_lines (fs : FS) (path : Text) (file : File)
    (hfile : fs path = some file)
    (hfit : ∀ l ∈ rawLines file.data,
      (split 59 (dropCR l)).length < 2 → l.length < maxScanTokenSize) :
    loadDump (fs.set path (some ⟨removeShortLines file.data, file.readErr⟩)) path
      = loadDump fs path ∧
    ∀ (t : IPTree) (line : Text), (split 59 line).length < 2 → addLine t line = t := by
  refine ⟨?_, addLine_short⟩
  rw [loadDump_eq fs path file hfile,
    loadDump_eq (fs.set path (some ⟨removeShortLines file.data, file.readErr⟩)) path _
      (FS.set_same _ _ _)]
  exact scanFile_removeShortLines file.data file.readErr hfit

theorem loadDump_short_lines_witness :
    loadDump ((fsWithCurrent (ascii "\n1.2.3.4\n5.6.7.8;x\r\n9.9.9.9|1.1.1.1")).set
        (currentDump (ascii "d"))
        (some ⟨removeShortLines (ascii "\n1.2.3.4\n5.6.7.8;x\r\n9.9.9.9|1.1.1.1"), none⟩))
        (currentDump (ascii "d"))
      = loadDump (fsWithCurrent (ascii "\n1.2.3.4\n5.6.7.8;x\r\n9.9.9.9|1.1.1.1"))
          (currentDump (ascii "d")) ∧
    ∀ (t : IPTree) (line : Text), (split 59 line).length < 2 → addLine t line = t :=
  loadDump_short_lines (fsWithCurrent (ascii "\n1.2.3.4\n5.6.7.8;x\r\n9.9.9.9|1.1.1.1"))
    (currentDump (ascii "d")) ⟨ascii "\n1.2.3.4\n5.6.7.8;x\r\n9.9.9.9|1.1.1.1", none⟩ rfl
    (by decide)

theorem dropCR_subset (l : Text) : ∀ c ∈ dropCR l, c ∈ l := by
  intro c hc
  unfold dropCR at hc
  by_cases h : l.getLast? = some 13
  · rw [if_pos h] at hc
    exact List.mem_of_mem_dropLast hc
  · rw [if_neg h] at hc; exact hc

theorem filter_single_false (p : Text → Bool) (l : Text) (h : p l = false) :
    List.filter p [l] = [] := by
  simp [List.filter, h]

theorem longLine_short : (split 59 (dropCR longLine)).length < 2 := by
  have hno : 59 ∉ dropCR longLine := by
    intro h
    have := List.eq_of_mem_replicate (dropCR_subset _ _ h)
    revert this
    decide
  rw [split_no_sep 59 _ hno]
  decide

theorem removeShortLines_longLine : removeShortLines longLine = [] := by
  unfold removeShortLines
  rw [rawLines_longLine, filter_single_false _ _ (by
    rw [decide_eq_false_iff_not]; exact Nat.not_le.2 longLine_short)]
  rfl

/-- C8 fails as stated: a dataset whose only line has 100000 letters and no semicolon
makes `loadDump` fail with `bufio.ErrTooLong`, while `loadDump` builds an index from
the dataset with that line removed. -/
theorem loadDump_short_line_counterexample :
    rawLines longLine = [longLine] ∧
    (split 59 (dropCR longLine)).length < 2 ∧
    removeShortLines longLine = [] ∧
    loadDump (fsWithCurrent longLine) (currentDump (ascii "d")) = .error .tooLong ∧
    loadDump (fsWithCurrent (removeShortLines longLine)) (currentDump (ascii "d"))
      = .ok seed := by
  refine ⟨rawLines_longLine, longLine_short, removeShortLines_longLine, ?_, ?_⟩
  · rw [loadDump_eq (fsWithCurrent longLine) (currentDump (ascii "d"))
      ⟨longLine, none⟩ (FS.set_same _ _ _)]
    exact scanFile_longLine none
  · rw [removeShortLines_longLine]
    rfl

/-- C9 (as the code has it): in every refresh cycle `dump.current` changes only if the
download to `dump.fresh`, the index build from it and the rename have all succeeded;
when download and build succeed, the published index becomes the index built from
the downloaded data, and `dump.current` then holds exactly the downloaded data if the
rename succeeds, while a failed rename is only logged and leaves the files as the
download left them. -/
theorem refresh_promotes (dumpDir : Text) (env : CycleEnv) (s : State) :
    ((refreshCycle dumpDir env s).fs (currentDump dumpDir) ≠ s.fs (currentDump dumpDir) →
      (downloadDump env.download s.fs (freshDump dumpDir)).2 = none ∧
      (∃ newDb, loadDump (downloadDump env.download s.fs (freshDump dumpDir)).1
        (freshDump dumpDir) = .ok newDb) ∧
      env.rename = none) ∧
    (∀ fs1 newDb, downloadDump env.download s.fs (freshDump dumpDir) = (fs1, none) →
      loadDump fs1 (freshDump dumpDir) = .ok newDb →
      ∃ resp, env.download.get = .ok resp ∧ fs1 (freshDump dumpDir) = some ⟨resp.body, none⟩ ∧
        buildIndex resp.body = .ok newDb ∧
        (refreshCycle dumpDir env s).db = newDb ∧
        (env.rename = none →
          (refreshCycle dumpDir env s).fs (currentDump dumpDir) = some ⟨resp.body, none⟩ ∧
          (refreshCycle dumpDir env s).fs (freshDump dumpDir) = none) ∧
        (env.rename ≠ none → (refreshCycle dumpDir env s).fs = fs1)) := by
  have hne := fresh_ne_current dumpDir
  constructor
  · intro hchg
    by_cases hfail : (downloadDump env.download s.fs (freshDump dumpDir)).2 ≠ none ∨
        ∃ e, loadDump (downloadDump env.download s.fs (freshDump dumpDir)).1 (freshDump dumpDir)
          = .error e
    · apply absurd _ hchg
      rw [(refreshCycle_failed dumpDir env s hfail).2]
      exact downloadDump_frame _ _ _ _ hne.symm
    · push_neg at hfail
      obtain ⟨h1, h2⟩ := hfail
      rcases hd : downloadDump env.download s.fs (freshDump dumpDir) with ⟨fs1, err⟩
      rw [hd] at h1 h2
      dsimp only at h1 h2
      subst h1
      cases hl : loadDump fs1 (freshDump dumpDir) with
      | error e => exact absurd hl (h2 e)
      | ok newDb =>
        refine ⟨rfl, ⟨newDb, rfl⟩, ?_⟩
        by_contra hr
        apply hchg
        obtain ⟨e, he⟩ := Option.ne_none_iff_exists'.1 hr
        have : (refreshCycle dumpDir env s).fs = fs1 := by
          simp [refreshCycle, hd, hl, osRename, he]
        rw [this]
        have := downloadDump_frame env.download s.fs (freshDump dumpDir) (currentDump dumpDir)
          hne.symm
        rw [hd] at this
        exact this
  · intro fs1 newDb hd hl
    obtain ⟨resp, hg, _, hbody⟩ := downloadDump_ok _ _ _ _ hd
    refine ⟨resp, hg, hbody, ?_, ?_, ?_, ?_⟩
    · show scanFile ⟨resp.body, none⟩ = .ok newDb
      rw [← loadDump_eq fs1 _ _ hbody]; exact hl
    · simp [refreshCycle, hd, hl]
    · intro hr
      have : (refreshCycle dumpDir env s).fs
          = (fs1.set (currentDump dumpDir) (some ⟨resp.body, none⟩)).set (freshDump dumpDir) none := by
        simp [refreshCycle, hd, hl, osRename, hr, hbody]
      rw [this]
      exact ⟨by rw [FS.set_other _ _ _ _ hne.symm, FS.set_same], FS.set_same _ _ _⟩
    · intro hr
      obtain ⟨e, he⟩ := Option.ne_none_iff_exists'.1 hr
      simp [refreshCycle, hd, hl, osRename, he]

theorem refresh_promotes_witness :
    ∃ resp, (goodDownload (ascii "5.6.7.8;x\n")).get = .ok resp ∧
      ((fsWithCurrent (ascii "1.2.3.0/24;note")).set (freshDump (ascii "d"))
        (some ⟨ascii "5.6.7.8;x\n", none⟩)) (freshDump (ascii "d")) = some ⟨resp.body, none⟩ ∧
      buildIndex resp.body = .ok (add1 seed (ascii "5.6.7.8")) ∧
      (refreshCycle (ascii "d") ⟨goodDownload (ascii "5.6.7.8;x\n"), none⟩
        ⟨add1 seed (ascii "1.2.3.0/24"), fsWithCurrent (ascii "1.2.3.0/24;note")⟩).db
        = add1 seed (ascii "5.6.7.8") ∧
      ((none : Option GoError) = none →
        (refreshCycle (ascii "d") ⟨goodDownload (ascii "5.6.7.8;x\n"), none⟩
          ⟨add1 seed (ascii "1.2.3.0/24"), fsWithCurrent (ascii "1.2.3.0/24;note")⟩).fs
            (currentDump (ascii "d")) = some ⟨resp.body, none⟩ ∧
        (refreshCycle (ascii "d") ⟨goodDownload (ascii "5.6.7.8;x\n"), none⟩
          ⟨add1 seed (ascii "1.2.3.0/24"), fsWithCurrent (ascii "1.2.3.0/24;note")⟩).fs
            (freshDump (ascii "d")) = none) ∧
      ((none : Option GoError) ≠ none →
        (refreshCycle (ascii "d") ⟨goodDownload (ascii "5.6.7.8;x\n"), none⟩
          ⟨add1 seed (ascii "1.2.3.0/24"), fsWithCurrent (ascii "1.2.3.0/24;note")⟩).fs
          = (fsWithCurrent (ascii "1.2.3.0/24;note")).set (freshDump (ascii "d"))
              (some ⟨ascii "5.6.7.8;x\n", none⟩)) :=
  (refresh_promotes (ascii "d") ⟨goodDownload (ascii "5.6.7.8;x\n"), none⟩
    ⟨add1 seed (ascii "1.2.3.0/24"), fsWithCurrent (ascii "1.2.3.0/24;note")⟩).2
    ((fsWithCurrent (ascii "1.2.3.0/24;note")).set (freshDump (ascii "d"))
      (some ⟨ascii "5.6.7.8;x\n", none⟩))
    (add1 seed (ascii "5.6.7.8"))
    (downloadDump_good _ _ _)
    (by rfl)

/-- C9 fails as stated: when the download and the index build succeed but the rename
fails, the new index is published and `dump.current` still holds the old data. -/
theorem refresh_rename_counterexample :
    (downloadDump (goodDownload (ascii "5.6.7.8;x\n"))
        (fsWithCurrent (ascii "1.2.3.0/24;note")) (freshDump (ascii "d"))).2 = none ∧
    (refreshCycle (ascii "d") ⟨goodDownload (ascii "5.6.7.8;x\n"), some (.other "EXDEV")⟩
        ⟨add1 seed (ascii "1.2.3.0/24"), fsWithCurrent (ascii "1.2.3.0/24;note")⟩).db
      = add1 seed (ascii "5.6.7.8") ∧
    (refreshCycle (ascii "d") ⟨goodDownload (ascii "5.6.7.8;x\n"), some (.other "EXDEV")⟩
        ⟨add1 seed (ascii "1.2.3.0/24"), fsWithCurrent (ascii "1.2.3.0/24;note")⟩).fs
        (currentDump (ascii "d"))
      = some ⟨ascii "1.2.3.0/24;note", none⟩ :=
  ⟨by decide, by decide, by decide⟩

theorem stepRefresher_inv (dumpDir : Text) (env : CycleEnv) (body : Except GoError (List Text))
    (encodeErr : Option GoError) (dbOld : IPTree) (c c' : Config)
    (hinv : Inv dumpDir env body encodeErr dbOld c)
    (hstep : stepRefresher dumpDir env c = some c') :
    Inv dumpDir env body encodeErr dbOld c' := by
  obtain ⟨db, fs, lock, r, h⟩ := c
  obtain ⟨hdb, hr, hh⟩ := hinv
  cases r with
  | start =>
    simp only [stepRefresher] at hstep
    rcases hd : downloadDump env.download fs (freshDump dumpDir) with ⟨fs1, err⟩
    rw [hd] at hstep
    cases err with
    | some e =>
      simp only [Option.some.injEq] at hstep
      subst hstep
      exact ⟨hdb, hr, hh⟩
    | none =>
      simp only [Option.some.injEq] at hstep
      subst hstep
      obtain ⟨resp, hg, _, hbody⟩ := downloadDump_ok _ _ _ _ hd
      exact ⟨hdb, ⟨hr, resp, hg, hbody⟩, hh⟩
  | opening =>
    obtain ⟨hl, resp, hg, hbody⟩ := hr
    simp only at hbody
    simp only [stepRefresher, osOpen, hbody, Option.some.injEq] at hstep
    subst hstep
    exact ⟨hdb, ⟨hl, resp, hg, rfl⟩, hh⟩
  | loading ls readErr t =>
    obtain ⟨hl, resp, hg, hscan⟩ := hr
    cases ls with
    | nil =>
      cases readErr with
      | some e =>
        simp only [stepRefresher, Option.some.injEq] at hstep
        subst hstep
        exact ⟨hdb, hl, hh⟩
      | none =>
        simp only [stepRefresher, Option.some.injEq] at hstep
        subst hstep
        refine ⟨hdb, ⟨hl, resp, hg, ?_⟩, hh⟩
        show scanFile ⟨resp.body, none⟩ = .ok t
        unfold scanFile
        unfold seed at hscan
        rw [← hscan]
        rfl
    | cons l ls =>
      simp only [stepRefresher] at hstep
      by_cases hlen : maxScanTokenSize ≤ l.length
      · simp only [hlen, if_true, Option.some.injEq] at hstep
        subst hstep
        exact ⟨hdb, hl, hh⟩
      · simp only [hlen, if_false, Option.some.injEq] at hstep
        subst hstep
        refine ⟨hdb, ⟨hl, resp, hg, ?_⟩, hh⟩
        rw [← hscan]
        simp [scanLoop, hlen]
  | acquire d =>
    obtain ⟨hl, hb⟩ := hr
    simp only [stepRefresher] at hstep
    by_cases hfree : lock = none
    · simp only [hfree, if_true, Option.some.injEq] at hstep
      subst hstep
      subst hfree
      refine ⟨hdb, ⟨rfl, hb⟩, ?_⟩
      cases h <;> simp_all [HInv]
    · simp [hfree] at hstep
  | assign d =>
    obtain ⟨hl, hb⟩ := hr
    simp only at hl
    simp only [stepRefresher, Option.some.injEq] at hstep
    subst hstep
    subst hl
    refine ⟨Or.inr hb, rfl, ?_⟩
    cases h <;> simp_all [HInv]
  | rename =>
    simp only [stepRefresher, Option.some.injEq] at hstep
    subst hstep
    exact ⟨hdb, hr, hh⟩
  | release =>
    have hl : lock = some .refresher := hr
    simp only [stepRefresher, Option.some.injEq] at hstep
    subst hstep
    subst hl
    refine ⟨hdb, by simp [RInv], ?_⟩
    cases h <;> simp_all [HInv]
  | done => simp [stepRefresher] at hstep

theorem stepHandler_inv (dumpDir : Text) (env : CycleEnv) (body : Except GoError (List Text))
    (encodeErr : Option GoError) (dbOld : IPTree) (c c' : Config)
    (hinv : Inv dumpDir env body encodeErr dbOld c)
    (hstep : stepHandler body encodeErr c = some c') :
    Inv dumpDir env body encodeErr dbOld c' := by
  obtain ⟨db, fs, lock, r, h⟩ := c
  obtain ⟨hdb, hr, hh⟩ := hinv
  cases h with
  | start =>
    simp only [stepHandler] at hstep
    by_cases hfree : lock = none
    · simp only [hfree, if_true, Option.some.injEq] at hstep
      subst hstep
      subst hfree
      refine ⟨hdb, ?_, rfl⟩
      cases r <;> simp_all [RInv]
    · simp [hfree] at hstep
  | decode =>
    have hl : lock = some .handler := hh
    simp only [stepHandler] at hstep
    cases body with
    | error e =>
      simp only [Option.some.injEq] at hstep
      subst hstep
      exact ⟨hdb, hr, hl, rfl⟩
    | ok ips =>
      by_cases hlen : ips.length < 1
      · simp only [hlen, if_true, Option.some.injEq] at hstep
        subst hstep
        refine ⟨hdb, hr, hl, ?_⟩
        simp [checkIps, hlen]
      · simp only [hlen, if_false, Option.some.injEq] at hstep
        subst hstep
        exact ⟨hdb, hr, hl, ips, rfl, hlen, rfl⟩
  | loop rem res looked =>
    obtain ⟨hl, ips, hbody, hlen, hloop⟩ := hh
    simp only at hl hloop
    cases rem with
    | nil =>
      simp only [stepHandler, Option.some.injEq] at hstep
      subst hstep
      refine ⟨hdb, hr, hl, ?_⟩
      simp only [checkIps, hbody, hlen, if_false, hloop, checkLoop]
    | cons ip rem =>
      simp only [stepHandler] at hstep
      cases hone : checkOne db ip res with
      | error e =>
        rw [hone] at hstep
        simp only [Option.some.injEq] at hstep
        subst hstep
        refine ⟨hdb, hr, hl, ?_⟩
        simp only [checkIps, hbody, hlen, if_false, hloop, checkLoop, hone]
      | ok res1 =>
        rw [hone] at hstep
        simp only [Option.some.injEq] at hstep
        subst hstep
        refine ⟨hdb, hr, hl, ips, hbody, hlen, ?_⟩
        simp only [hloop, checkLoop, hone]
  | respond out looked =>
    obtain ⟨hl, hout⟩ := hh
    simp only at hl hout
    simp only [stepHandler, Option.some.injEq] at hstep
    subst hstep
    subst hl
    refine ⟨hdb, ?_, by simp, ?_⟩
    · cases r <;> simp_all [RInv]
    · rcases hdb with hdb | hdb
      · left; simp only at hdb; rw [← hdb]; exact hout
      · right; exact ⟨db, hdb, hout⟩
  | done out looked => simp [stepHandler] at hstep

theorem step_inv (dumpDir : Text) (env : CycleEnv) (body : Except GoError (List Text))
    (encodeErr : Option GoError) (dbOld : IPTree) (c : Config) (tid : Tid)
    (hinv : Inv dumpDir env body encodeErr dbOld c) :
    Inv dumpDir env body encodeErr dbOld (step dumpDir env body encodeErr c tid) := by
  cases tid with
  | refresher =>
    unfold step
    cases hs : stepRefresher dumpDir env c with
    | none => exact hinv
    | some c' => exact stepRefresher_inv dumpDir env body encodeErr dbOld c c' hinv hs
  | handler =>
    unfold step
    cases hs : stepHandler body encodeErr c with
    | none => exact hinv
    | some c' => exact stepHandler_inv dumpDir env body encodeErr dbOld c c' hinv hs

theorem foldl_step_inv (dumpDir : Text) (env : CycleEnv) (body : Except GoError (List Text))
    (encodeErr : Option GoError) (dbOld : IPTree) (sched : List Tid) :
    ∀ c : Config, Inv dumpDir env body encodeErr dbOld c →
      Inv dumpDir env body encodeErr dbOld (sched.foldl (step dumpDir env body encodeErr) c) := by
  induction sched with
  | nil => intro c h; exact h
  | cons tid sched ih =>
    intro c h
    exact ih _ (step_inv dumpDir env body encodeErr dbOld c tid h)

theorem initial_inv (dumpDir : Text) (env : CycleEnv) (body : Except GoError (List Text))
    (encodeErr : Option GoError) (db : IPTree) (fs : FS) :
    Inv dumpDir env body encodeErr db (initial db fs) := by
  refine ⟨Or.inl rfl, ?_, ?_⟩ <;> simp [initial, RInv, HInv]

theorem checkLoop_error (db : IPTree) :
    ∀ (ips : List Text) (res : ResMap) (looked : List Text),
      (∃ ip ∈ ips, (GetByString db ip).2.2 ≠ none) →
      ∃ e l, checkLoop db ips res looked = (.error e, l) := by
  intro ips
  induction ips with
  | nil => intro res looked h; simp at h
  | cons ip ips ih =>
    intro res looked h
    cases hone : checkOne db ip res with
    | error e => exact ⟨e, looked ++ [ip], by simp [checkLoop, hone]⟩
    | ok res1 =>
      have h2 : ∃ x ∈ ips, (GetByString db x).2.2 ≠ none := by
        obtain ⟨x, hx, hne⟩ := h
        rcases List.mem_cons.1 hx with rfl | hx
        · obtain ⟨e, he⟩ := Option.ne_none_iff_exists'.1 hne
          rw [checkOne_error db x res e he] at hone
          cases hone
        · exact ⟨x, hx, hne⟩
      obtain ⟨e, l, hl⟩ := ih res1 (looked ++ [ip]) h2
      exact ⟨e, l, by simp [checkLoop, hone, hl]⟩

/-- A mapping the handler hands to the encoder gives every address of the batch the
flag of the index the handler ran on. -/
theorem checkIps_encoded (d : IPTree) (ips : List Text) (encodeErr err : Option GoError)
    (res : ResMap) (looked : List Text)
    (h : (Outcome.encoded res err, looked) = checkIps d (.ok ips) encodeErr) :
    ∀ ip ∈ ips, res.get ip = some (member d ip) := by
  by_cases hlen : ips.length < 1
  · simp [checkIps, hlen] at h
  · by_cases hall : ∀ ip ∈ ips, (GetByString d ip).2.2 = none
    · have hne : ips ≠ [] := by
        intro e; rw [e] at hlen; simp at hlen
      rw [checkIps_valid d ips encodeErr hne hall] at h
      simp only [Prod.mk.injEq, Outcome.encoded.injEq] at h
      intro ip hip
      rw [h.1.1, get_foldl_set (member d) ip ips [], if_pos hip]
    · push_neg at hall
      obtain ⟨e, l, hl⟩ := checkLoop_error d ips [] [] hall
      simp [checkIps, hlen, hl] at h

/-- C10: under every schedule of the steps of one refresh cycle and one request that
share `db` and the mutex, `db` is at every moment the index published before the
cycle or an index `loadDump` has built completely from the downloaded data; the
handler is in its lookup loop, and the refresher at its assignment of `db`, only
while holding the mutex; and a request that has returned carries the answer the
handler gives on one of these two indexes, so that every address of its mapping has
the flag of the pre-refresh index or the flag of the post-refresh index. -/
theorem handler_reads_whole_index (dumpDir : Text) (env : CycleEnv)
    (body : Except GoError (List Text)) (encodeErr : Option GoError) (db : IPTree) (fs : FS)
    (sched : List Tid) :
    ((runSchedule dumpDir env body encodeErr db fs sched).db = db ∨
      Built env (runSchedule dumpDir env body encodeErr db fs sched).db) ∧
    (∀ rem res looked,
      (runSchedule dumpDir env body encodeErr db fs sched).h = .loop rem res looked →
      (runSchedule dumpDir env body encodeErr db fs sched).lock = some .handler) ∧
    (∀ d, (runSchedule dumpDir env body encodeErr db fs sched).r = .assign d →
      (runSchedule dumpDir env body encodeErr db fs sched).lock = some .refresher ∧
      Built env d) ∧
    (∀ out looked,
      (runSchedule dumpDir env body encodeErr db fs sched).h = .done out looked →
      ((out, looked) = checkIps db body encodeErr ∨
        ∃ d, Built env d ∧ (out, looked) = checkIps d body encodeErr) ∧
      ∀ ips res err, body = .ok ips → out = .encoded res err →
        (∀ ip ∈ ips, res.get ip = some (member db ip)) ∨
        ∃ d, Built env d ∧ ∀ ip ∈ ips, res.get ip = some (member d ip)) := by
  have hinv := foldl_step_inv dumpDir env body encodeErr db sched (initial db fs)
    (initial_inv dumpDir env body encodeErr db fs)
  change Inv dumpDir env body encodeErr db (runSchedule dumpDir env body encodeErr db fs sched)
    at hinv
  obtain ⟨hdb, hr, hh⟩ := hinv
  refine ⟨hdb, ?_, ?_, ?_⟩
  · intro rem res looked hloop
    unfold HInv at hh
    rw [hloop] at hh
    exact hh.1
  · intro d hassign
    unfold RInv at hr
    rw [hassign] at hr
    exact hr
  · intro out looked hdone
    unfold HInv at hh
    rw [hdone] at hh
    refine ⟨hh.2, ?_⟩
    intro ips res err hbody hout
    subst hbody
    subst hout
    rcases hh.2 with h | ⟨d, hd, h⟩
    · left; exact checkIps_encoded db ips encodeErr err res looked h
    · right; exact ⟨d, hd, checkIps_encoded d ips encodeErr err res looked h⟩

theorem handler_reads_whole_index_witness :
    ((Outcome.encoded [(ascii "5.6.7.8", false)] none, [ascii "5.6.7.8"])
        = checkIps (add1 seed (ascii "1.2.3.0/24")) (.ok [ascii "5.6.7.8"]) none ∨
      ∃ d, Built ⟨goodDownload (ascii "5.6.7.8;x\n"), none⟩ d ∧
        (Outcome.encoded [(ascii "5.6.7.8", false)] none, [ascii "5.6.7.8"])
          = checkIps d (.ok [ascii "5.6.7.8"]) none) ∧
    ∀ ips res err, (Except.ok [ascii "5.6.7.8"] : Except GoError (List Text)) = .ok ips →
      Outcome.encoded [(ascii "5.6.7.8", false)] none = .encoded res err →
      (∀ ip ∈ ips, res.get ip = some (member (add1 seed (ascii "1.2.3.0/24")) ip)) ∨
      ∃ d, Built ⟨goodDownload (ascii "5.6.7.8;x\n"), none⟩ d ∧
        ∀ ip ∈ ips, res.get ip = some (member d ip) :=
  (handler_reads_whole_index (ascii "d") ⟨goodDownload (ascii "5.6.7.8;x\n"), none⟩
    (.ok [ascii "5.6.7.8"]) none (add1 seed (ascii "1.2.3.0/24"))
    (fsWithCurrent (ascii "1.2.3.0/24;note")) handlerFirst).2.2.2
    (.encoded [(ascii "5.6.7.8", false)] none) [ascii "5.6.7.8"] rfl

end CheckRkn
